import Mathlib

/-!
Verification of png-crc-fix: the chunk decoder and the CRC repair pass.

A shallow embedding of `main.go` (package `main` of `landaire/png-crc-fix`) together with the
portable table-driven CRC-32 of Go's `hash/crc32`, which `CalculateCRC` calls.

Conventions of the embedding:

* a Go `byte` is a `Byte = Fin 256`, a Go `uint32` field is a `Word32 = Fin 2^32`; all
  arithmetic is done on the underlying naturals with the wrap-around written out;
* a Go `int64` is an `Int`; `wrapInt64` is the two's complement wrap of an `int64` result;
* an `*os.File` (used as `io.Reader`, `io.ReadSeeker` and writer) is a `File`: the
  bytes on disk, the current position of the handle, and a log of the writes issued.
-/

namespace PngCrcFix

/-! ## Machine integers -/

/-- A Go `byte`. -/
abbrev Byte := Fin 256

/-- A Go `uint32`. -/
abbrev Word32 := Fin 4294967296

/-- Conversion `byte(n)`: the low 8 bits. -/
def toByte (n : Nat) : Byte := ⟨n % 256, Nat.mod_lt _ (by decide)⟩

/-- Conversion `uint32(n)`: the low 32 bits. -/
def toWord32 (n : Nat) : Word32 := ⟨n % 4294967296, Nat.mod_lt _ (by decide)⟩

/-- Two's complement wrap of an `int64` result. -/
def wrapInt64 (x : Int) : Int :=
  (x + 9223372036854775808) % 18446744073709551616 - 9223372036854775808

/-! ## `hash/crc32` (portable implementation) -/

/-- The constant `crc32.IEEE`: the reflected IEEE polynomial. -/
def IEEE : Nat := 0xedb88320

/-- One iteration of the inner loop of `simplePopulateTable`:
`if crc&1 == 1 { crc = (crc >> 1) ^ poly } else { crc >>= 1 }`. -/
def shiftStep (poly crc : Nat) : Nat :=
  if crc % 2 = 1 then (crc >>> 1) ^^^ poly else crc >>> 1

/-- The inner loop `for j := 0; j < 8; j++` of `simplePopulateTable`, with `n` iterations. -/
def shiftSteps (poly : Nat) : Nat → Nat → Nat
  | 0, crc => crc
  | n + 1, crc => shiftSteps poly n (shiftStep poly crc)

/-- The table built by `simpleMakeTable(poly)`: entry `i` is `i` after eight shift steps. -/
def simpleMakeTable (poly : Nat) : List Nat :=
  (List.range 256).map (fun i => shiftSteps poly 8 i)

/-- The loop body of `simpleUpdate`: `crc = tab[byte(crc)^v] ^ (crc >> 8)`. -/
def simpleUpdateStep (tab : List Nat) (crc : Nat) (v : Byte) : Nat :=
  tab.getD ((crc % 256) ^^^ v.val) 0 ^^^ (crc >>> 8)

/-- The function `simpleUpdate(crc, tab, p)`: complement, run the loop over `p`, complement. -/
def simpleUpdate (crc : Nat) (tab : List Nat) (p : List Byte) : Nat :=
  (p.foldl (simpleUpdateStep tab) (crc ^^^ 0xffffffff)) ^^^ 0xffffffff

/-- The function `crc32.Checksum(data, tab)`, which is `Update(0, tab, data)`. -/
def Checksum (data : List Byte) (tab : List Nat) : Nat :=
  simpleUpdate 0 tab data

/-! ## The reference CRC-32 (bit by bit, no table) -/

/-- Reference: feed one byte into the register, least significant bit first:
xor the byte into the low bits, then eight times shift right by one bit and
xor the reflected polynomial `0xEDB88320` in when the bit shifted out was set. -/
def crc32RefByte (reg : Nat) (b : Byte) : Nat :=
  (List.range 8).foldl
    (fun r _ => if r % 2 = 1 then (r / 2) ^^^ 0xEDB88320 else r / 2) (reg ^^^ b.val)

/-- Reference CRC-32 (IEEE/zlib): register initialised to `0xFFFFFFFF`, every byte fed
bit by bit, the final register complemented. -/
def crc32Reference (bs : List Byte) : Nat :=
  (bs.foldl crc32RefByte 0xFFFFFFFF) ^^^ 0xFFFFFFFF

/-! ## Files: `*os.File` as reader, seeker and writer -/

/-- An open `*os.File`: the bytes on disk, the position of the handle, and (ghost state)
the log of the writes issued so far, each with the position it landed on. -/
structure File where
  content : List Byte
  pos : Nat
  log : List (Nat × List Byte)
deriving DecidableEq

/-- The call `os.OpenFile(path, os.O_RDWR, 0644)` on a file holding `content`. -/
def OpenFile (content : List Byte) : File := ⟨content, 0, []⟩

/-- The `whence` argument of `Seek`. -/
inductive Whence where
  | SEEK_SET
  | SEEK_CUR
deriving DecidableEq

/-- The method `file.Seek(offset, whence)`: returns the new position; a negative target is an
error, which returns `0` and leaves the position where it was. The position of a handle is
below `2^63` on every system, so the position is returned as it is. -/
def File.Seek (f : File) (offset : Int) (whence : Whence) : Int × File :=
  let target : Int :=
    match whence with
    | Whence.SEEK_SET => offset
    | Whence.SEEK_CUR => (f.pos : Int) + offset
  if target < 0 then (0, f) else (target, { f with pos := target.toNat })

/-- The call `io.ReadFull(f, buf)` with `len(buf) = n`: all `n` bytes, or an error after
consuming what was left. -/
def File.ReadFull (f : File) (n : Nat) : Option (List Byte) × File :=
  let bs := (f.content.drop f.pos).take n
  if bs.length = n then (some bs, { f with pos := f.pos + n })
  else (none, { f with pos := f.pos + bs.length })

/-- What the disk holds after writing `bs` at position `pos`: a position past the end
leaves a gap of zero bytes, bytes under `bs` are overwritten, a write over the end extends
the file. -/
def writeAt (content : List Byte) (pos : Nat) (bs : List Byte) : List Byte :=
  let padded := content ++ List.replicate (pos - content.length) 0
  padded.take pos ++ bs ++ padded.drop (pos + bs.length)

/-- The method `file.Write(bs)`: writes at the current position and advances it. -/
def File.Write (f : File) (bs : List Byte) : File :=
  { content := writeAt f.content f.pos bs, pos := f.pos + bs.length,
    log := f.log ++ [(f.pos, bs)] }

/-! ## `encoding/binary`, big endian -/

/-- The function `binary.BigEndian.Uint32(b)`. -/
def beUint32 (b : List Byte) : Word32 :=
  toWord32 ((b.getD 0 0).val * 16777216 + (b.getD 1 0).val * 65536
    + (b.getD 2 0).val * 256 + (b.getD 3 0).val)

/-- The function `binary.BigEndian.PutUint32(b, v)`: the four bytes written. -/
def bePutUint32 (v : Nat) : List Byte :=
  [toByte (v >>> 24), toByte (v >>> 16), toByte (v >>> 8), toByte v]

/-- The call `binary.Read(reader, binary.BigEndian, &x)` for `x` a `uint32`. -/
def binaryReadUint32 (reader : File) : Option Word32 × File :=
  match reader.ReadFull 4 with
  | (some b, reader) => (some (beUint32 b), reader)
  | (none, reader) => (none, reader)

/-! ## `main.go` -/

/-- The constant `chunkStartOffset`. -/
def chunkStartOffset : Int := 8

/-- The constant `endChunk`, the string `"IEND"`. -/
def endChunk : List Byte := [0x49, 0x45, 0x4e, 0x44]

/-- The constant `magic`, the string `"\x89PNG\x0d\x0a\x1a\x0a"`. -/
def magic : List Byte := [0x89, 0x50, 0x4e, 0x47, 0x0d, 0x0a, 0x1a, 0x0a]

/-- A `[4]byte` array, the type of the field `Type`. -/
structure Bytes4 where
  b0 : Byte
  b1 : Byte
  b2 : Byte
  b3 : Byte
deriving DecidableEq

/-- The slice `t[:]` of a `[4]byte` array. -/
def Bytes4.toList (t : Bytes4) : List Byte := [t.b0, t.b1, t.b2, t.b3]

/-- The struct `pngChunk`; the field `Type` is spelled `Typ`. -/
structure pngChunk where
  Offset : Int
  Length : Word32
  Typ : Bytes4
  Data : List Byte
  CRC : Word32
deriving DecidableEq

/-- The call `binary.Read(reader, binary.BigEndian, &x)` for `x` a `[4]byte`. -/
def binaryReadBytes4 (reader : File) : Option Bytes4 × File :=
  match reader.ReadFull 4 with
  | (some b, reader) => (some ⟨b.getD 0 0, b.getD 1 0, b.getD 2 0, b.getD 3 0⟩, reader)
  | (none, reader) => (none, reader)

/-- The method `BytesForCRC`: the bytes that contribute to the chunk's CRC32. -/
def pngChunk.BytesForCRC (p : pngChunk) : List Byte :=
  p.Typ.toList ++ p.Data

/-- The method `CalculateCRC`: `crc32.Checksum(p.BytesForCRC(), crc32.MakeTable(crc32.IEEE))`. -/
def pngChunk.CalculateCRC (p : pngChunk) : Nat :=
  let crcTable := simpleMakeTable IEEE
  Checksum p.BytesForCRC crcTable

/-- The method `CRCIsValid`: `p.CRC == p.CalculateCRC()`. -/
def pngChunk.CRCIsValid (p : pngChunk) : Bool :=
  p.CRC.val == p.CalculateCRC

/-- The method `CRCOffset`: `p.Offset + int64(8+p.Length)`, where `8+p.Length` is a
`uint32` sum and the outer sum an `int64` one. -/
def pngChunk.CRCOffset (p : pngChunk) : Int :=
  wrapInt64 (p.Offset + (((8 + p.Length.val) % 4294967296 : Nat) : Int))

/-- The closure `readChunk` of `readChunks`: one chunk read at the current position, or
`none` for the `read_error` exit. -/
def readChunk (reader : File) : Option pngChunk × File :=
  match reader.Seek 0 Whence.SEEK_CUR with
  | (offset, reader) =>
    match binaryReadUint32 reader with
    | (none, reader) => (none, reader)
    | (some length, reader) =>
      match binaryReadBytes4 reader with
      | (none, reader) => (none, reader)
      | (some typ, reader) =>
        match reader.ReadFull length.val with
        | (none, reader) => (none, reader)
        | (some data, reader) =>
          match binaryReadUint32 reader with
          | (none, reader) => (none, reader)
          | (some crc, reader) => (some ⟨offset, length, typ, data, crc⟩, reader)

/-- The `for` loop of `readChunks`, run for at most `fuel` iterations: while the last chunk
of `chunks` is not `"IEND"`, read one more chunk and append it; stop at a read error. -/
def readChunksLoop : Nat → File → List pngChunk → List pngChunk × File
  | 0, reader, chunks => (chunks, reader)
  | fuel + 1, reader, chunks =>
    match chunks.getLast? with
    | none => (chunks, reader)
    | some last =>
      if last.Typ.toList ≠ endChunk then
        match readChunk reader with
        | (none, reader) => (chunks, reader)
        | (some chunk, reader) => readChunksLoop fuel reader (chunks ++ [chunk])
      else (chunks, reader)

/-- The function `readChunks`: seek to `chunkStartOffset`, read the first chunk, then loop.
Every iteration consumes at least 12 bytes, so the length of the file is enough fuel. -/
def readChunks (reader : File) : List pngChunk × File :=
  let chunks : List pngChunk := []
  match reader.Seek chunkStartOffset Whence.SEEK_SET with
  | (_, reader) =>
    match readChunk reader with
    | (none, reader) => (chunks, reader)
    | (some chunk, reader) =>
      readChunksLoop reader.content.length reader (chunks ++ [chunk])

/-- The function `isPng`: read 8 bytes; a short read is `false`. -/
def isPng (s : File) : Bool × File :=
  match s.ReadFull 8 with
  | (none, s) => (false, s)
  | (some h, s) => (h == magic, s)

/-- The body of the `for _, chunk := range chunks` loop of `main`. -/
def repairChunk (file : File) (chunk : pngChunk) : File :=
  if !chunk.CRCIsValid then
    match file.Seek chunk.CRCOffset Whence.SEEK_SET with
    | (_, file) => file.Write (bePutUint32 chunk.CalculateCRC)
  else file

/-- The function `main` on an openable file (`len(os.Args) == 2`): the exit status and the
file handle at exit. -/
def main (content : List Byte) : Nat × File :=
  let file := OpenFile content
  match isPng file with
  | (false, file) => (1, file)
  | (true, file) =>
    match readChunks file with
    | (chunks, file) => (0, chunks.foldl repairChunk file)

/-! ## The chunk layout of a file -/

/-- The bytes of a chunk in the file: big-endian length, type, data, big-endian CRC. -/
def encodeChunk (c : pngChunk) : List Byte :=
  bePutUint32 c.Length.val ++ c.Typ.toList ++ c.Data ++ bePutUint32 c.CRC.val

/-- The descriptor of the chunk whose bytes start at position `pos` of `content`: the
fields as `readChunk` decodes them when none of its reads fails. -/
def chunkAt (content : List Byte) (pos : Nat) : pngChunk :=
  let length := beUint32 ((content.drop pos).take 4)
  let typ := (content.drop (pos + 4)).take 4
  { Offset := (pos : Int)
    Length := length
    Typ := ⟨typ.getD 0 0, typ.getD 1 0, typ.getD 2 0, typ.getD 3 0⟩
    Data := (content.drop (pos + 4 + 4)).take length.val
    CRC := beUint32 ((content.drop (pos + 4 + 4 + length.val)).take 4) }

/-- The chunks decoded from position `pos` on, in at most `fuel` steps: the chunk at `pos`
when it lies within the file, then, unless it is `"IEND"`, the chunks after it. -/
def chunksFrom (content : List Byte) : Nat → Nat → List pngChunk
  | 0, _ => []
  | fuel + 1, pos =>
    let c := chunkAt content pos
    if 12 + c.Length.val ≤ content.length - pos then
      c :: (if c.Typ.toList = endChunk then []
        else chunksFrom content fuel (pos + 12 + c.Length.val))
    else []

/-- The bytes of a sequence of chunks laid out one after the other. -/
def encodeChunks : List pngChunk → List Byte
  | [] => []
  | c :: cs => encodeChunk c ++ encodeChunks cs

/-- The chunks `cs` with the offsets they have when the first one starts at `off`: each
later chunk starts 12 + `Length` bytes after the one before it. -/
def layout (off : Int) : List pngChunk → List pngChunk
  | [] => []
  | c :: cs => { c with Offset := off } :: layout (off + 12 + (c.Length.val : Int)) cs

/-! ## Sample inputs -/

/-- The type code `"IHDR"`. -/
def typeIHDR : Bytes4 := ⟨0x49, 0x48, 0x44, 0x52⟩

/-- The type code `"IDAT"`. -/
def typeIDAT : Bytes4 := ⟨0x49, 0x44, 0x41, 0x54⟩

/-- The type code `"IEND"`. -/
def typeIEND : Bytes4 := ⟨0x49, 0x45, 0x4e, 0x44⟩

/-- A header chunk with a 13-byte payload and a wrong stored CRC. -/
def sampleIHDR : pngChunk :=
  { Offset := 0, Length := 13, Typ := typeIHDR,
    Data := [0, 0, 0, 1, 0, 0, 0, 1, 8, 0, 0, 0, 0], CRC := 5 }

/-- A data chunk with a 3-byte payload and a wrong stored CRC. -/
def sampleIDAT : pngChunk :=
  { Offset := 0, Length := 3, Typ := typeIDAT, Data := [1, 2, 3], CRC := 7 }

/-- The terminal chunk, with its right CRC. -/
def sampleIEND : pngChunk :=
  { Offset := 0, Length := 0, Typ := typeIEND, Data := [], CRC := 0xae426082 }

/-- A small file: signature, `IHDR`, `IDAT`, `IEND`. -/
def samplePng : List Byte :=
  magic ++ encodeChunks [sampleIHDR, sampleIDAT, sampleIEND]

/-- A descriptor whose `Length` is within 8 of the top of the `uint32` range. -/
def wrapChunk : pngChunk :=
  { Offset := 8, Length := 4294967288, Typ := typeIDAT, Data := [], CRC := 0 }

/-- A chunk of `0xFFFFFFF8` bytes of data with a wrong stored CRC. Its data starts with the
four bytes that clear the CRC register after `"IDAT"` and goes on with zero bytes, which
leave the register clear. -/
def hugeChunk : pngChunk :=
  { Offset := 8, Length := ⟨4294967288, by decide⟩, Typ := typeIDAT,
    Data := [225, 249, 80, 202] ++ List.replicate 4294967284 0, CRC := 0 }

/-- A file of 4 GiB and 12 bytes: the signature followed by `hugeChunk`. -/
def hugePng : List Byte :=
  magic ++ encodeChunk hugeChunk

/-! ## The decode loop with an explicit bound -/

/-- The function `readChunks` with the `for` loop cut off after `fuel` iterations;
`readChunks` is the instance with the length of the file for `fuel`. -/
def readChunksFuel (fuel : Nat) (reader : File) : List pngChunk × File :=
  let chunks : List pngChunk := []
  match reader.Seek chunkStartOffset Whence.SEEK_SET with
  | (_, reader) =>
    match readChunk reader with
    | (none, reader) => (chunks, reader)
    | (some chunk, reader) => readChunksLoop fuel reader (chunks ++ [chunk])

/-- A small file whose only chunk, `IEND`, has the right CRC. -/
def validPng : List Byte :=
  magic ++ encodeChunks [sampleIEND]

/-! ## The repair step on the bytes alone -/

/-- What the loop body of `main` does to the bytes on disk when its seek succeeds: the
computed CRC is written at `CRCOffset` when the stored CRC is not valid. -/
def repairBytes (content : List Byte) (chunk : pngChunk) : List Byte :=
  if !chunk.CRCIsValid then
    writeAt content chunk.CRCOffset.toNat (bePutUint32 chunk.CalculateCRC)
  else content

/-! ## A second family of large inputs -/

/-- A chunk of `0xFFFFFFF8` bytes of data with stored CRC 1: the data is four bytes that
clear the CRC register after `"IDAT"`, then `mid`, then four bytes that take a clear register
to `0xFFFFFFFF`, so that the computed CRC is 0 whenever `mid` leaves a clear register clear. -/
def wrapChunkOf (mid : List Byte) : pngChunk :=
  { Offset := 8, Length := ⟨4294967288, by decide⟩, Typ := typeIDAT,
    Data := [225, 249, 80, 202] ++ (mid ++ [98, 245, 38, 146]), CRC := ⟨1, by decide⟩ }

/-- The file made of the signature followed by `wrapChunkOf mid`. -/
def wrapPngOf (mid : List Byte) : List Byte :=
  magic ++ encodeChunk (wrapChunkOf mid)

/-- A file of 4 GiB and 12 bytes: `wrapPngOf` with 4294967280 zero bytes in the middle. -/
def hugePng2 : List Byte :=
  wrapPngOf (List.replicate 4294967280 0)

/-- The empty `"IDAT"` chunk with stored CRC `0xE1F950CA`. -/
def shortChunk : pngChunk :=
  { Offset := 8, Length := ⟨0, by decide⟩, Typ := typeIDAT, Data := [],
    CRC := ⟨0xe1f950ca, by decide⟩ }

/-- The file `wrapPngOf mid` after one run of `main`: the length field of its chunk now holds
the computed CRC, 0, so the file starts with `shortChunk`. -/
def repairedPngOf (mid : List Byte) : List Byte :=
  magic ++ (encodeChunk shortChunk ++ (mid ++ [98, 245, 38, 146, 0, 0, 0, 1]))

/-! ## Lemmas: the table-driven CRC is the bit-by-bit CRC -/

theorem shiftStep_eq (poly crc : Nat) :
    shiftStep poly crc = (crc / 2) ^^^ (if crc % 2 = 1 then poly else 0) := by
  unfold shiftStep
  split <;> simp [Nat.shiftRight_eq_div_pow]

theorem xor_div_two (a b : Nat) : (a ^^^ b) / 2 = (a / 2) ^^^ (b / 2) := by
  apply Nat.eq_of_testBit_eq
  intro i
  simp [Nat.testBit_xor, ← Nat.testBit_succ]

theorem xor_mod_two (a b : Nat) : (a ^^^ b) % 2 = (a % 2 + b % 2) % 2 := by
  have h := Nat.testBit_xor a b 0
  simp only [Nat.testBit_zero] at h
  rcases Nat.mod_two_eq_zero_or_one a with ha | ha <;>
  rcases Nat.mod_two_eq_zero_or_one b with hb | hb <;>
  rcases Nat.mod_two_eq_zero_or_one (a ^^^ b) with hab | hab <;>
  simp_all

theorem xor_xor_xor_comm (a b c d : Nat) : (a ^^^ b) ^^^ (c ^^^ d) = (a ^^^ c) ^^^ (b ^^^ d) := by
  ac_rfl

theorem shiftStep_xor (poly a b : Nat) :
    shiftStep poly (a ^^^ b) = shiftStep poly a ^^^ shiftStep poly b := by
  rw [shiftStep_eq, shiftStep_eq, shiftStep_eq, xor_xor_xor_comm, xor_div_two, xor_mod_two]
  rcases Nat.mod_two_eq_zero_or_one a with ha | ha <;>
  rcases Nat.mod_two_eq_zero_or_one b with hb | hb <;>
  simp [ha, hb]

theorem shiftSteps_xor (poly n a b : Nat) :
    shiftSteps poly n (a ^^^ b) = shiftSteps poly n a ^^^ shiftSteps poly n b := by
  induction n generalizing a b with
  | zero => rfl
  | succ n ih => simp only [shiftSteps, shiftStep_xor, ih]

theorem shiftStep_two_mul (poly y : Nat) : shiftStep poly (2 * y) = y := by
  simp [shiftStep_eq]

theorem shiftSteps_two_pow_mul (poly n y : Nat) : shiftSteps poly n (2 ^ n * y) = y := by
  induction n generalizing y with
  | zero => simp [shiftSteps]
  | succ n ih =>
    have h : 2 ^ (n + 1) * y = 2 * (2 ^ n * y) := by ring
    rw [shiftSteps, h, shiftStep_two_mul, ih]

theorem split_low_high (n x : Nat) : x = (x % 2 ^ n) ^^^ (2 ^ n * (x / 2 ^ n)) := by
  apply Nat.eq_of_testBit_eq
  intro i
  rw [Nat.mul_comm, ← Nat.shiftLeft_eq, ← Nat.shiftRight_eq_div_pow, Nat.testBit_xor,
    Nat.testBit_mod_two_pow, Nat.testBit_shiftLeft, Nat.testBit_shiftRight]
  by_cases h : i < n
  · simp [h, Nat.not_le.mpr h]
  · have h2 : n ≤ i := Nat.le_of_not_lt h
    simp [h, h2, Nat.add_sub_cancel' h2]

theorem shiftSteps_split (poly n x : Nat) :
    shiftSteps poly n x = shiftSteps poly n (x % 2 ^ n) ^^^ (x / 2 ^ n) := by
  conv_lhs => rw [split_low_high n x]
  rw [shiftSteps_xor, shiftSteps_two_pow_mul]

theorem getD_simpleMakeTable (poly i : Nat) (h : i < 256) :
    (simpleMakeTable poly).getD i 0 = shiftSteps poly 8 i := by
  simp [simpleMakeTable, List.getD_eq_getElem?_getD, List.getElem?_map, List.getElem?_range h]

theorem xor_byte_mod (crc v : Nat) (hv : v < 256) : (crc ^^^ v) % 256 = (crc % 256) ^^^ v := by
  apply Nat.eq_of_testBit_eq
  intro i
  have h1 := Nat.testBit_mod_two_pow (crc ^^^ v) 8 i
  have h2 := Nat.testBit_mod_two_pow crc 8 i
  simp only [Nat.reducePow] at h1 h2
  rw [h1, Nat.testBit_xor, Nat.testBit_xor, h2]
  by_cases h : i < 8
  · simp [h]
  · have h3 : v.testBit i = false :=
      Nat.testBit_lt_two_pow (Nat.lt_of_lt_of_le hv
        (show 2 ^ 8 ≤ 2 ^ i from Nat.pow_le_pow_right (by decide) (Nat.le_of_not_lt h)))
    simp [h, h3]

theorem xor_byte_div (crc v : Nat) (hv : v < 256) : (crc ^^^ v) / 256 = crc / 256 := by
  apply Nat.eq_of_testBit_eq
  intro i
  have h1 := Nat.testBit_shiftRight (i := 8) (j := i) (crc ^^^ v)
  have h2 := Nat.testBit_shiftRight (i := 8) (j := i) crc
  have h3 : v.testBit (8 + i) = false :=
    Nat.testBit_lt_two_pow (Nat.lt_of_lt_of_le hv
      (show 2 ^ 8 ≤ 2 ^ (8 + i) from Nat.pow_le_pow_right (by decide) (Nat.le_add_right 8 i)))
  simp only [Nat.shiftRight_eq_div_pow, Nat.reducePow] at h1 h2
  rw [h1, h2, Nat.testBit_xor, h3]
  simp

theorem simpleUpdateStep_eq (crc : Nat) (v : Byte) :
    simpleUpdateStep (simpleMakeTable IEEE) crc v = crc32RefByte crc v := by
  have hv : v.val < 256 := v.isLt
  have hidx : (crc % 256) ^^^ v.val < 256 :=
    Nat.xor_lt_two_pow (n := 8) (Nat.mod_lt _ (by decide)) hv
  have href : crc32RefByte crc v = shiftSteps IEEE 8 (crc ^^^ v.val) := by
    simp [crc32RefByte, List.range_succ, shiftSteps, shiftStep, IEEE, Nat.shiftRight_eq_div_pow]
  rw [href, simpleUpdateStep, getD_simpleMakeTable _ _ hidx, shiftSteps_split IEEE 8 (crc ^^^ v.val)]
  simp only [Nat.reducePow, Nat.shiftRight_eq_div_pow]
  rw [xor_byte_mod _ _ hv, xor_byte_div _ _ hv]

theorem Checksum_eq_reference (bs : List Byte) :
    Checksum bs (simpleMakeTable IEEE) = crc32Reference bs := by
  have h : simpleUpdateStep (simpleMakeTable IEEE) = crc32RefByte := by
    funext crc v; exact simpleUpdateStep_eq crc v
  simp [Checksum, simpleUpdate, crc32Reference, h]

set_option maxRecDepth 100000 in
theorem crc32Reference_check :
    crc32Reference [0x31, 0x32, 0x33, 0x34, 0x35, 0x36, 0x37, 0x38, 0x39] = 0xCBF43926 := by
  decide

/-! ## Lemmas: reading -/

theorem ReadFull_ok (f : File) (n : Nat) (h : n ≤ f.content.length - f.pos) :
    f.ReadFull n = (some ((f.content.drop f.pos).take n), { f with pos := f.pos + n }) := by
  simp [File.ReadFull, List.length_take, List.length_drop, h]

theorem ReadFull_short (f : File) (n : Nat) (h : f.content.length - f.pos < n) :
    (f.ReadFull n).1 = none := by
  have : ¬ n ≤ f.content.length - f.pos := Nat.not_le.mpr h
  simp [File.ReadFull, List.length_take, List.length_drop, this]

theorem beUint32_bePutUint32 (v : Word32) : beUint32 (bePutUint32 v.val) = v := by
  apply Fin.ext
  have h := v.isLt
  simp only [beUint32, bePutUint32, toWord32, toByte, List.getD_cons_zero, List.getD_cons_succ,
    Nat.shiftRight_eq_div_pow]
  omega

theorem bePutUint32_beUint32 (b0 b1 b2 b3 : Byte) (rest : List Byte) :
    bePutUint32 (beUint32 (b0 :: b1 :: b2 :: b3 :: rest)).val = [b0, b1, b2, b3] := by
  have h0 := b0.isLt
  have h1 := b1.isLt
  have h2 := b2.isLt
  have h3 := b3.isLt
  simp only [beUint32, bePutUint32, toWord32, toByte, List.getD_cons_zero, List.getD_cons_succ,
    Nat.shiftRight_eq_div_pow, List.cons.injEq, and_true]
  refine ⟨?_, ?_, ?_, ?_⟩ <;> apply Fin.ext <;> simp only [] <;> omega

theorem Seek_cur (f : File) : f.Seek 0 Whence.SEEK_CUR = ((f.pos : Int), f) := by
  simp [File.Seek]

theorem Seek_set (f : File) (n : Nat) :
    f.Seek (n : Int) Whence.SEEK_SET = ((n : Int), { f with pos := n }) := by
  simp [File.Seek]

theorem readChunk_ok (r : File)
    (h : 12 + (chunkAt r.content r.pos).Length.val ≤ r.content.length - r.pos) :
    readChunk r = (some (chunkAt r.content r.pos),
      { r with pos := r.pos + 12 + (chunkAt r.content r.pos).Length.val }) := by
  have hL : (chunkAt r.content r.pos).Length = beUint32 ((r.content.drop r.pos).take 4) := rfl
  rw [hL] at h
  have h1 : 4 ≤ r.content.length - r.pos := by omega
  have h2 : 4 ≤ r.content.length - (r.pos + 4) := by omega
  have h3 : (beUint32 ((r.content.drop r.pos).take 4)).val ≤ r.content.length - (r.pos + 4 + 4) := by
    omega
  have h4 : 4 ≤ r.content.length
      - (r.pos + 4 + 4 + (beUint32 ((r.content.drop r.pos).take 4)).val) := by omega
  simp only [readChunk, Seek_cur, binaryReadUint32, binaryReadBytes4, ReadFull_ok r 4 h1]
  rw [ReadFull_ok _ 4 h2]
  simp only []
  rw [ReadFull_ok _ _ h3]
  simp only []
  rw [ReadFull_ok _ 4 h4]
  simp only [chunkAt, Prod.mk.injEq, true_and, File.mk.injEq, and_true]
  omega

theorem readChunk_fail (r : File)
    (h : ¬ 12 + (chunkAt r.content r.pos).Length.val ≤ r.content.length - r.pos) :
    (readChunk r).1 = none := by
  have hL : (chunkAt r.content r.pos).Length = beUint32 ((r.content.drop r.pos).take 4) := rfl
  rw [hL] at h
  simp only [readChunk, Seek_cur, binaryReadUint32, binaryReadBytes4]
  by_cases h1 : 4 ≤ r.content.length - r.pos
  · rw [ReadFull_ok r 4 h1]
    simp only []
    by_cases h2 : 4 ≤ r.content.length - (r.pos + 4)
    · rw [ReadFull_ok _ 4 h2]
      simp only []
      by_cases h3 : (beUint32 ((r.content.drop r.pos).take 4)).val
          ≤ r.content.length - (r.pos + 4 + 4)
      · rw [ReadFull_ok _ _ h3]
        simp only []
        have h4 : r.content.length
            - (r.pos + 4 + 4 + (beUint32 ((r.content.drop r.pos).take 4)).val) < 4 := by omega
        have := ReadFull_short ⟨r.content, r.pos + 4 + 4
          + (beUint32 ((r.content.drop r.pos).take 4)).val, r.log⟩ 4 h4
        revert this
        generalize File.ReadFull _ 4 = x
        rcases x with ⟨_ | _, _⟩ <;> simp
      · have := ReadFull_short ⟨r.content, r.pos + 4 + 4, r.log⟩
          (beUint32 ((r.content.drop r.pos).take 4)).val (Nat.lt_of_not_le h3)
        revert this
        generalize File.ReadFull _ _ = x
        rcases x with ⟨_ | _, _⟩ <;> simp
    · have := ReadFull_short ⟨r.content, r.pos + 4, r.log⟩ 4 (Nat.lt_of_not_le h2)
      revert this
      generalize File.ReadFull _ 4 = x
      rcases x with ⟨_ | _, _⟩ <;> simp
  · have := ReadFull_short r 4 (Nat.lt_of_not_le h1)
    revert this
    generalize File.ReadFull r 4 = x
    rcases x with ⟨_ | _, _⟩ <;> simp

theorem ReadFull_content (f : File) (n : Nat) :
    (f.ReadFull n).2.content = f.content ∧ (f.ReadFull n).2.log = f.log := by
  unfold File.ReadFull
  simp only []
  split <;> simp

theorem readChunk_content (r : File) :
    (readChunk r).2.content = r.content ∧ (readChunk r).2.log = r.log := by
  simp only [readChunk, Seek_cur, binaryReadUint32, binaryReadBytes4]
  have key : ∀ (f : File) (n : Nat) (o : Option (List Byte)) (g : File),
      f.ReadFull n = (o, g) → g.content = f.content ∧ g.log = f.log := by
    intro f n o g h
    have := ReadFull_content f n
    rw [h] at this
    exact this
  rcases h1 : r.ReadFull 4 with ⟨_ | b1, r1⟩
  · exact key _ _ _ _ h1
  · have k1 := key _ _ _ _ h1
    simp only []
    rcases h2 : r1.ReadFull 4 with ⟨_ | b2, r2⟩
    · have k2 := key _ _ _ _ h2
      exact ⟨k2.1.trans k1.1, k2.2.trans k1.2⟩
    · have k2 := key _ _ _ _ h2
      simp only []
      rcases h3 : r2.ReadFull (beUint32 b1).val with ⟨_ | b3, r3⟩
      · have k3 := key _ _ _ _ h3
        exact ⟨k3.1.trans (k2.1.trans k1.1), k3.2.trans (k2.2.trans k1.2)⟩
      · have k3 := key _ _ _ _ h3
        simp only []
        rcases h4 : r3.ReadFull 4 with ⟨_ | b4, r4⟩
        · have k4 := key _ _ _ _ h4
          exact ⟨k4.1.trans (k3.1.trans (k2.1.trans k1.1)),
            k4.2.trans (k3.2.trans (k2.2.trans k1.2))⟩
        · have k4 := key _ _ _ _ h4
          exact ⟨k4.1.trans (k3.1.trans (k2.1.trans k1.1)),
            k4.2.trans (k3.2.trans (k2.2.trans k1.2))⟩

theorem readChunk_cases (r : File) :
    (12 + (chunkAt r.content r.pos).Length.val ≤ r.content.length - r.pos ∧
      readChunk r = (some (chunkAt r.content r.pos),
        { r with pos := r.pos + 12 + (chunkAt r.content r.pos).Length.val })) ∨
    (¬ 12 + (chunkAt r.content r.pos).Length.val ≤ r.content.length - r.pos ∧
      ∃ r', readChunk r = (none, r') ∧ r'.content = r.content ∧ r'.log = r.log) := by
  by_cases h : 12 + (chunkAt r.content r.pos).Length.val ≤ r.content.length - r.pos
  · exact Or.inl ⟨h, readChunk_ok r h⟩
  · refine Or.inr ⟨h, (readChunk r).2, ?_, (readChunk_content r).1, (readChunk_content r).2⟩
    have := readChunk_fail r h
    rcases hx : readChunk r with ⟨o, r'⟩
    rw [hx] at this
    simp only [] at this
    simp [this]

theorem readChunksLoop_append (fuel : Nat) (r : File) (acc : List pngChunk) (last : pngChunk) :
    readChunksLoop fuel r (acc ++ [last])
      = (acc ++ (readChunksLoop fuel r [last]).1, (readChunksLoop fuel r [last]).2) := by
  induction fuel generalizing r acc last with
  | zero => simp [readChunksLoop]
  | succ fuel ih =>
    simp only [readChunksLoop, List.getLast?_append, List.getLast?_singleton, Option.or_some]
    by_cases hend : last.Typ.toList = endChunk
    · simp [hend]
    · simp only [ne_eq, hend, not_false_eq_true, if_true]
      rcases readChunk r with ⟨_ | c, r'⟩
      · simp
      · simp only []
        rw [ih r' (acc ++ [last]) c, ih r' [last] c]
        simp

theorem readChunksLoop_eq (fuel : Nat) (r : File) (last : pngChunk) :
    (readChunksLoop fuel r [last]).1
      = last :: (if last.Typ.toList = endChunk then [] else chunksFrom r.content fuel r.pos) ∧
    (readChunksLoop fuel r [last]).2.content = r.content ∧
    (readChunksLoop fuel r [last]).2.log = r.log := by
  induction fuel generalizing r last with
  | zero => simp [readChunksLoop, chunksFrom]
  | succ fuel ih =>
    simp only [readChunksLoop, List.getLast?_singleton]
    by_cases hend : last.Typ.toList = endChunk
    · simp [hend]
    · simp only [ne_eq, hend, not_false_eq_true, if_true, if_false]
      rcases readChunk_cases r with ⟨hok, hr⟩ | ⟨hno, r', hr, hc, hl⟩
      · rw [hr]
        simp only []
        rw [readChunksLoop_append fuel _ [last] _]
        have h2 := ih { r with pos := r.pos + 12 + (chunkAt r.content r.pos).Length.val }
          (chunkAt r.content r.pos)
        simp only [] at h2
        simp only [h2.1, h2.2.1, h2.2.2, chunksFrom, hok, if_true, List.singleton_append,
          and_self, and_true]
      · rw [hr]
        simp [chunksFrom, hno, hc, hl]

theorem readChunks_eq (r : File) :
    (readChunks r).1 = chunksFrom r.content (r.content.length + 1) 8 ∧
    (readChunks r).2.content = r.content ∧ (readChunks r).2.log = r.log := by
  have hs : r.Seek chunkStartOffset Whence.SEEK_SET = ((8 : Int), { r with pos := 8 }) :=
    Seek_set r 8
  simp only [readChunks, hs, List.nil_append]
  rcases readChunk_cases { r with pos := 8 } with ⟨hok, hr⟩ | ⟨hno, r', hr, hc, hl⟩
  · rw [hr]
    simp only []
    have h2 := readChunksLoop_eq r.content.length
      { r with pos := 8 + 12 + (chunkAt r.content 8).Length.val } (chunkAt r.content 8)
    simp only [] at h2 hok
    simp only [h2.1, h2.2.1, h2.2.2, chunksFrom, hok, if_true, and_self, and_true]
  · rw [hr]
    simp only [] at hno hc hl
    simp [chunksFrom, hno, hc, hl]

/-! ## Lemmas: decoding the chunk layout -/

theorem length_bePutUint32 (v : Nat) : (bePutUint32 v).length = 4 := rfl

theorem length_toList (t : Bytes4) : t.toList.length = 4 := rfl

theorem length_encodeChunk (c : pngChunk) : (encodeChunk c).length = 12 + c.Data.length := by
  simp only [encodeChunk, List.length_append, length_bePutUint32, length_toList]
  omega

theorem length_encodeChunks_ge (cs : List pngChunk) : cs.length ≤ (encodeChunks cs).length := by
  induction cs with
  | nil => simp [encodeChunks]
  | cons c cs ih =>
    simp only [encodeChunks, List.length_cons, List.length_append, length_encodeChunk]
    omega

theorem take_drop_append_mid (pre bs post : List Byte) :
    ((pre ++ (bs ++ post)).drop pre.length).take bs.length = bs := by
  simp

theorem encodeChunk_append (c : pngChunk) (post : List Byte) :
    encodeChunk c ++ post = bePutUint32 c.Length.val
      ++ (c.Typ.toList ++ (c.Data ++ (bePutUint32 c.CRC.val ++ post))) := by
  simp only [encodeChunk, List.append_assoc]

theorem chunkAt_encode_length (pre post : List Byte) (c : pngChunk) :
    beUint32 (((pre ++ (encodeChunk c ++ post)).drop pre.length).take 4) = c.Length := by
  have h := take_drop_append_mid pre (bePutUint32 c.Length.val)
    (c.Typ.toList ++ (c.Data ++ (bePutUint32 c.CRC.val ++ post)))
  rw [length_bePutUint32] at h
  rw [encodeChunk_append, h, beUint32_bePutUint32]

theorem chunkAt_encode_type (pre post : List Byte) (c : pngChunk) :
    ((pre ++ (encodeChunk c ++ post)).drop (pre.length + 4)).take 4 = c.Typ.toList := by
  have h := take_drop_append_mid (pre ++ bePutUint32 c.Length.val) c.Typ.toList
    (c.Data ++ (bePutUint32 c.CRC.val ++ post))
  simp only [List.length_append, length_bePutUint32, length_toList, List.append_assoc] at h
  rw [encodeChunk_append, h]

theorem chunkAt_encode_data (pre post : List Byte) (c : pngChunk)
    (hd : c.Data.length = c.Length.val) :
    ((pre ++ (encodeChunk c ++ post)).drop (pre.length + 4 + 4)).take c.Length.val = c.Data := by
  have h := take_drop_append_mid (pre ++ bePutUint32 c.Length.val ++ c.Typ.toList) c.Data
    (bePutUint32 c.CRC.val ++ post)
  simp only [List.length_append, length_bePutUint32, length_toList, List.append_assoc, hd] at h
  rw [encodeChunk_append, Nat.add_assoc, h]

theorem chunkAt_encode_crc (pre post : List Byte) (c : pngChunk)
    (hd : c.Data.length = c.Length.val) :
    beUint32 (((pre ++ (encodeChunk c ++ post)).drop (pre.length + 4 + 4 + c.Length.val)).take 4)
      = c.CRC := by
  have h := take_drop_append_mid (pre ++ bePutUint32 c.Length.val ++ c.Typ.toList ++ c.Data)
    (bePutUint32 c.CRC.val) post
  simp only [List.length_append, length_bePutUint32, length_toList, List.append_assoc, hd] at h
  rw [encodeChunk_append, Nat.add_assoc, Nat.add_assoc, h, beUint32_bePutUint32]

theorem chunkAt_encode (pre post : List Byte) (c : pngChunk)
    (hd : c.Data.length = c.Length.val) :
    chunkAt (pre ++ (encodeChunk c ++ post)) pre.length
      = { c with Offset := (pre.length : Int) } := by
  unfold chunkAt
  simp only [chunkAt_encode_length, chunkAt_encode_type, chunkAt_encode_data _ _ _ hd,
    chunkAt_encode_crc _ _ _ hd]
  rfl

theorem chunkAt_Length (content : List Byte) (pos : Nat) :
    (chunkAt content pos).Length = beUint32 ((content.drop pos).take 4) := rfl

theorem chunkAt_Offset (content : List Byte) (pos : Nat) :
    (chunkAt content pos).Offset = (pos : Int) := rfl

theorem chunksFrom_encode (cs : List pngChunk) :
    ∀ (pre tail : List Byte) (fuel : Nat),
      (∀ c ∈ cs, c.Data.length = c.Length.val) →
      (∀ c ∈ cs.dropLast, c.Typ.toList ≠ endChunk) →
      ((∀ c ∈ cs, c.Typ.toList ≠ endChunk) →
        ¬ 12 + (chunkAt (pre ++ (encodeChunks cs ++ tail))
              (pre.length + (encodeChunks cs).length)).Length.val
          ≤ (pre ++ (encodeChunks cs ++ tail)).length - (pre.length + (encodeChunks cs).length)) →
      cs.length ≤ fuel →
      chunksFrom (pre ++ (encodeChunks cs ++ tail)) fuel pre.length
        = layout (pre.length : Int) cs := by
  induction cs with
  | nil =>
    intro pre tail fuel _ _ hstop _
    have hs := hstop (by simp)
    cases fuel with
    | zero => rfl
    | succ fuel =>
      simp only [encodeChunks, List.length_nil, Nat.add_zero] at hs
      simp only [chunksFrom, encodeChunks, layout, hs, if_false]
  | cons c cs ih =>
    intro pre tail fuel hdata hend hstop hfuel
    have hd : c.Data.length = c.Length.val := hdata c (List.mem_cons_self _ _)
    cases fuel with
    | zero => simp at hfuel
    | succ fuel =>
      have hcontent : pre ++ (encodeChunks (c :: cs) ++ tail)
          = pre ++ (encodeChunk c ++ (encodeChunks cs ++ tail)) := by
        simp only [encodeChunks, List.append_assoc]
      have hcontent2 : pre ++ (encodeChunks (c :: cs) ++ tail)
          = (pre ++ encodeChunk c) ++ (encodeChunks cs ++ tail) := by
        simp only [encodeChunks, List.append_assoc]
      have hat : chunkAt (pre ++ (encodeChunks (c :: cs) ++ tail)) pre.length
          = { c with Offset := (pre.length : Int) } := by
        rw [hcontent]
        exact chunkAt_encode pre _ c hd
      have hpl : (pre ++ encodeChunk c).length = pre.length + 12 + c.Length.val := by
        rw [List.length_append, length_encodeChunk, hd]
        omega
      have hin : 12 + c.Length.val
          ≤ (pre ++ (encodeChunks (c :: cs) ++ tail)).length - pre.length := by
        rw [hcontent]
        simp only [List.length_append, length_encodeChunk, hd]
        omega
      simp only [chunksFrom, hat, hin, if_true, layout]
      by_cases hc : c.Typ.toList = endChunk
      · have hnil : cs = [] := by
          by_contra hne
          have : c ∈ (c :: cs).dropLast := by
            rw [List.dropLast_cons_of_ne_nil hne]
            exact List.mem_cons_self _ _
          exact hend c this hc
        subst hnil
        simp [hc, layout]
      · simp only [hc, if_false]
        congr 1
        have hih := ih (pre ++ encodeChunk c) tail fuel
          (fun x hx => hdata x (List.mem_cons_of_mem _ hx))
          (fun x hx => by
            have hne : cs ≠ [] := by
              intro h0
              rw [h0] at hx
              simp at hx
            apply hend x
            rw [List.dropLast_cons_of_ne_nil hne]
            exact List.mem_cons_of_mem _ hx)
          (fun hall => by
            have h1 := hstop (by
              intro x hx
              rcases List.mem_cons.mp hx with rfl | hx
              · exact hc
              · exact hall x hx)
            rw [hcontent2] at h1
            have e : pre.length + (encodeChunks (c :: cs)).length
                = (pre ++ encodeChunk c).length + (encodeChunks cs).length := by
              simp only [encodeChunks, List.length_append]
              omega
            rw [e] at h1
            exact h1)
          (by simpa using hfuel)
        rw [hcontent2, ← hpl, hih, hpl]
        push_cast
        rfl

theorem take_drop_append_le (f g : List Byte) (p n : Nat) (h : p + n ≤ f.length) :
    ((f ++ g).drop p).take n = (f.drop p).take n := by
  rw [List.drop_append_of_le_length (by omega), List.take_append_of_le_length]
  rw [List.length_drop]
  omega

theorem getLast?_cons_of_ne_nil {α : Type} (a : α) (l : List α) (h : l ≠ []) :
    (a :: l).getLast? = l.getLast? := by
  cases l with
  | nil => exact absurd rfl h
  | cons b l => exact List.getLast?_cons_cons

theorem chunkAt_append (f g : List Byte) (pos : Nat)
    (h : pos + 12 + (chunkAt f pos).Length.val ≤ f.length) :
    chunkAt (f ++ g) pos = chunkAt f pos := by
  rw [chunkAt_Length] at h
  have e1 : ((f ++ g).drop pos).take 4 = (f.drop pos).take 4 :=
    take_drop_append_le f g pos 4 (by omega)
  have e2 : ((f ++ g).drop (pos + 4)).take 4 = (f.drop (pos + 4)).take 4 :=
    take_drop_append_le f g (pos + 4) 4 (by omega)
  have e3 : ((f ++ g).drop (pos + 4 + 4)).take (beUint32 ((f.drop pos).take 4)).val
      = (f.drop (pos + 4 + 4)).take (beUint32 ((f.drop pos).take 4)).val :=
    take_drop_append_le f g (pos + 4 + 4) _ (by omega)
  have e4 : ((f ++ g).drop (pos + 4 + 4 + (beUint32 ((f.drop pos).take 4)).val)).take 4
      = (f.drop (pos + 4 + 4 + (beUint32 ((f.drop pos).take 4)).val)).take 4 :=
    take_drop_append_le f g _ 4 (by omega)
  unfold chunkAt
  simp only [e1, e2, e3, e4]

theorem chunksFrom_append_of_end (f g : List Byte) (fuel1 : Nat) :
    ∀ (fuel2 pos : Nat) (last : pngChunk),
      (f ++ g).length - pos < fuel2 →
      (chunksFrom f fuel1 pos).getLast? = some last →
      last.Typ.toList = endChunk →
      chunksFrom (f ++ g) fuel2 pos = chunksFrom f fuel1 pos := by
  induction fuel1 with
  | zero =>
    intro fuel2 pos last _ hl _
    simp [chunksFrom] at hl
  | succ fuel1 ih =>
    intro fuel2 pos last hf hl hend
    cases fuel2 with
    | zero => omega
    | succ fuel2 =>
      by_cases hin : 12 + (chunkAt f pos).Length.val ≤ f.length - pos
      · have hin' : pos + 12 + (chunkAt f pos).Length.val ≤ f.length := by omega
        have hat := chunkAt_append f g pos hin'
        have hin2 : 12 + (chunkAt f pos).Length.val ≤ (f ++ g).length - pos := by
          rw [List.length_append]
          omega
        simp only [chunksFrom, hat, hin, hin2, if_true] at hl ⊢
        by_cases hc : (chunkAt f pos).Typ.toList = endChunk
        · simp only [hc, if_true]
        · simp only [hc, if_false] at hl ⊢
          congr 1
          have hne : chunksFrom f fuel1 (pos + 12 + (chunkAt f pos).Length.val) ≠ [] := by
            intro h0
            rw [h0] at hl
            simp only [List.getLast?_singleton, Option.some.injEq] at hl
            rw [hl] at hc
            exact hc hend
          rw [getLast?_cons_of_ne_nil _ _ hne] at hl
          exact ih fuel2 _ last (by rw [List.length_append] at hf ⊢; omega) hl hend
      · simp only [chunksFrom, hin, if_false] at hl
        simp at hl

theorem readChunks_layout (r : File) (h : List Byte) (cs : List pngChunk)
    (hr : r.content = h ++ encodeChunks cs) (hh : h.length = 8)
    (hdata : ∀ c ∈ cs, c.Data.length = c.Length.val)
    (hend : ∀ c ∈ cs.dropLast, c.Typ.toList ≠ endChunk) :
    (readChunks r).1 = layout 8 cs := by
  have hc : r.content = h ++ (encodeChunks cs ++ []) := by rw [List.append_nil]; exact hr
  have key := chunksFrom_encode cs h [] (r.content.length + 1) hdata hend
    (fun _ => by simp [List.length_append])
    (by
      have := length_encodeChunks_ge cs
      rw [hr, List.length_append]
      omega)
  rw [(readChunks_eq r).1]
  rw [← hc, hh] at key
  exact key

/-! ## Lemmas: the repair pass -/

theorem chunksFrom_mem (content : List Byte) (fuel : Nat) :
    ∀ (pos : Nat) (c : pngChunk), c ∈ chunksFrom content fuel pos →
      ∃ p : Nat, pos ≤ p ∧ c = chunkAt content p ∧ p + 12 + c.Length.val ≤ content.length := by
  induction fuel with
  | zero =>
    intro pos c h
    simp [chunksFrom] at h
  | succ fuel ih =>
    intro pos c h
    by_cases hin : 12 + (chunkAt content pos).Length.val ≤ content.length - pos
    · simp only [chunksFrom, hin, if_true, List.mem_cons] at h
      rcases h with rfl | h
      · exact ⟨pos, Nat.le_refl _, rfl, by omega⟩
      · by_cases hc : (chunkAt content pos).Typ.toList = endChunk
        · simp [hc] at h
        · simp only [hc, if_false] at h
          obtain ⟨p, hp, hcp, hle⟩ := ih _ c h
          exact ⟨p, by omega, hcp, hle⟩
    · simp [chunksFrom, hin] at h

theorem length_writeAt (content : List Byte) (pos : Nat) (bs : List Byte)
    (h : pos + bs.length ≤ content.length) :
    (writeAt content pos bs).length = content.length := by
  have h0 : pos - content.length = 0 := by omega
  simp only [writeAt, h0, List.replicate_zero, List.append_nil, List.length_append,
    List.length_take, List.length_drop]
  omega

theorem CRCOffset_inside (c : pngChunk) (p n : Nat) (hoff : c.Offset = (p : Int))
    (hin : p + 12 + c.Length.val ≤ n) (hn : n < 9223372036854775808) :
    ∃ q : Nat, c.CRCOffset = (q : Int) ∧ p ≤ q ∧ q + 4 ≤ n := by
  refine ⟨p + (8 + c.Length.val) % 4294967296, ?_, by omega, ?_⟩
  · have hlt := c.Length.isLt
    simp only [pngChunk.CRCOffset, wrapInt64, hoff]
    omega
  · have hlt := c.Length.isLt
    omega

theorem repairChunk_inside (file : File) (c : pngChunk) (p n : Nat)
    (hoff : c.Offset = (p : Int)) (hin : p + 12 + c.Length.val ≤ n)
    (hn : n < 9223372036854775808) (hlen : file.content.length = n)
    (hlog : ∀ w ∈ file.log, w.1 + w.2.length ≤ n) :
    (repairChunk file c).content.length = n ∧
    ∀ w ∈ (repairChunk file c).log, w.1 + w.2.length ≤ n := by
  obtain ⟨q, hq, _, hq4⟩ := CRCOffset_inside c p n hoff hin hn
  unfold repairChunk
  by_cases hv : c.CRCIsValid = true
  · simp only [hv, Bool.not_true, Bool.false_eq_true, if_false]
    exact ⟨hlen, hlog⟩
  · simp only [hv, Bool.not_eq_true, Bool.not_false, if_true, hq, Seek_set, File.Write]
    constructor
    · rw [length_writeAt _ _ _ (by rw [length_bePutUint32, hlen]; exact hq4)]
      exact hlen
    · intro w hw
      rcases List.mem_append.mp hw with hw | hw
      · exact hlog w hw
      · simp only [List.mem_singleton] at hw
        rw [hw]
        simpa [length_bePutUint32] using hq4

theorem foldl_repairChunk_inside (chunks : List pngChunk) (n : Nat)
    (hn : n < 9223372036854775808)
    (hin : ∀ c ∈ chunks, ∃ p : Nat, c.Offset = (p : Int) ∧ p + 12 + c.Length.val ≤ n) :
    ∀ file : File, file.content.length = n → (∀ w ∈ file.log, w.1 + w.2.length ≤ n) →
      (chunks.foldl repairChunk file).content.length = n ∧
      ∀ w ∈ (chunks.foldl repairChunk file).log, w.1 + w.2.length ≤ n := by
  induction chunks with
  | nil =>
    intro file hlen hlog
    exact ⟨hlen, hlog⟩
  | cons c cs ih =>
    intro file hlen hlog
    obtain ⟨p, hoff, hp⟩ := hin c (List.mem_cons_self _ _)
    have h1 := repairChunk_inside file c p n hoff hp hn hlen hlog
    exact ih (fun x hx => hin x (List.mem_cons_of_mem _ hx)) _ h1.1 h1.2

theorem isPng_spec (s : List Byte) :
    (isPng (OpenFile s)).1 = true ↔ 8 ≤ s.length ∧ s.take 8 = magic := by
  by_cases h : 8 ≤ s.length
  · have hr := ReadFull_ok (OpenFile s) 8 (by simpa [OpenFile] using h)
    simp only [isPng, hr]
    simp [OpenFile, h]
  · have hr := ReadFull_short (OpenFile s) 8 (by simpa [OpenFile] using h)
    have : (isPng (OpenFile s)).1 = false := by
      unfold isPng
      rcases hx : (OpenFile s).ReadFull 8 with ⟨_ | b, s'⟩
      · rfl
      · rw [hx] at hr
        simp at hr
    simp [this, h]

theorem isPng_content (f : File) : (isPng f).2.content = f.content ∧ (isPng f).2.log = f.log := by
  have h := ReadFull_content f 8
  unfold isPng
  rcases hx : f.ReadFull 8 with ⟨_ | b, s'⟩ <;> rw [hx] at h <;> exact h

theorem main_accepted (content : List Byte) (hpng : (isPng (OpenFile content)).1 = true) :
    ∃ file : File, file.content = content ∧ file.log = [] ∧
      main content = (0, (chunksFrom content (content.length + 1) 8).foldl repairChunk file) := by
  have hc := isPng_content (OpenFile content)
  rcases hx : isPng (OpenFile content) with ⟨b, file⟩
  rw [hx] at hpng hc
  simp only [] at hpng hc
  subst hpng
  have hr := readChunks_eq file
  have hm : main content
      = (0, (readChunks file).1.foldl repairChunk (readChunks file).2) := by
    simp only [main, hx]
  refine ⟨(readChunks file).2, ?_, ?_, ?_⟩
  · rw [hr.2.1, hc.1]; rfl
  · rw [hr.2.2, hc.2]; rfl
  · rw [hm, hr.1, hc.1]; rfl

theorem main_length (content : List Byte) (hsize : content.length < 9223372036854775808)
    (hpng : (isPng (OpenFile content)).1 = true) :
    (main content).2.content.length = content.length ∧
    ∀ w ∈ (main content).2.log, w.1 + w.2.length ≤ content.length := by
  obtain ⟨file, hfc, hfl, hmain⟩ := main_accepted content hpng
  rw [hmain]
  apply foldl_repairChunk_inside _ content.length hsize
  · intro c hc
    obtain ⟨p, _, hcp, hle⟩ := chunksFrom_mem content _ 8 c hc
    refine ⟨p, ?_, hle⟩
    rw [hcp]
    rfl
  · rw [hfc]
  · rw [hfl]
    intro w hw
    simp at hw

/-! ## Lemmas: a chunk longer than `2^32 - 8` bytes -/

theorem getElem?_writeAt (content : List Byte) (pos : Nat) (bs : List Byte) (i : Nat)
    (h : pos + bs.length ≤ content.length) (hi : i < bs.length) :
    (writeAt content pos bs)[pos + i]? = bs[i]? := by
  have h0 : pos - content.length = 0 := by omega
  have hl : (content.take pos).length = pos := by
    rw [List.length_take]
    omega
  simp only [writeAt, h0, List.replicate_zero, List.append_nil, List.append_assoc]
  rw [List.getElem?_append_right (by omega), hl, Nat.add_sub_cancel_left,
    List.getElem?_append_left hi]

theorem foldl_simpleUpdateStep_zeros (n : Nat) :
    (List.replicate n (0 : Byte)).foldl (simpleUpdateStep (simpleMakeTable IEEE)) 0 = 0 := by
  induction n with
  | zero => rfl
  | succ n ih =>
    have h0 : simpleUpdateStep (simpleMakeTable IEEE) 0 0 = 0 := by decide
    rw [List.replicate_succ, List.foldl_cons, h0, ih]


theorem hugeChunk_Data :
    hugeChunk.Data = [225, 249, 80, 202] ++ List.replicate 4294967284 (0 : Byte) := by
  unfold hugeChunk
  exact rfl

theorem hugeChunk_Length : hugeChunk.Length.val = 4294967288 := by
  unfold hugeChunk
  exact rfl

theorem hugeChunk_length : hugeChunk.Data.length = hugeChunk.Length.val := by
  have h4 : ([225, 249, 80, 202] : List Byte).length = 4 := rfl
  rw [hugeChunk_Data, hugeChunk_Length, List.length_append, List.length_replicate, h4]


theorem CalculateCRC_eq_foldl (p : pngChunk) :
    p.CalculateCRC = ((p.Typ.toList ++ p.Data).foldl
      (simpleUpdateStep (simpleMakeTable IEEE)) (0 ^^^ 0xffffffff)) ^^^ 0xffffffff := rfl

theorem hugeChunk_Typ : hugeChunk.Typ.toList = [0x49, 0x44, 0x41, 0x54] := by
  unfold hugeChunk
  exact rfl

theorem hugeChunk_CalculateCRC : hugeChunk.CalculateCRC = 0xffffffff := by
  have h8 : (([0x49, 0x44, 0x41, 0x54] : List Byte) ++ [225, 249, 80, 202]).foldl
      (simpleUpdateStep (simpleMakeTable IEEE)) (0 ^^^ 0xffffffff) = 0 := by decide
  have hfin : (0 : Nat) ^^^ 0xffffffff = 0xffffffff := by decide
  rw [CalculateCRC_eq_foldl, hugeChunk_Data, hugeChunk_Typ, ← List.append_assoc,
    List.foldl_append, h8, foldl_simpleUpdateStep_zeros, hfin]

theorem CRCIsValid_eq (p : pngChunk) : p.CRCIsValid = (p.CRC.val == p.CalculateCRC) := rfl

theorem hugeChunk_CRCIsValid : hugeChunk.CRCIsValid = false := by
  have hcrc : hugeChunk.CRC.val = 0 := by
    unfold hugeChunk
    exact rfl
  rw [CRCIsValid_eq, hugeChunk_CalculateCRC, hcrc]
  decide

theorem CRCOffset_eq (p : pngChunk) :
    p.CRCOffset = wrapInt64 (p.Offset + (((8 + p.Length.val) % 4294967296 : Nat) : Int)) := rfl

theorem hugeChunk_CRCOffset : hugeChunk.CRCOffset = ((8 : Nat) : Int) := by
  have hoff : hugeChunk.Offset = 8 := by
    unfold hugeChunk
    exact rfl
  rw [CRCOffset_eq, hugeChunk_Length, hoff]
  decide

theorem with_Offset_eq (c : pngChunk) (o : Int) (h : c.Offset = o) :
    ({ c with Offset := o } : pngChunk) = c := by
  cases c
  simp_all

theorem repairChunk_invalid (file : File) (c : pngChunk) (q : Nat)
    (hv : c.CRCIsValid = false) (hq : c.CRCOffset = (q : Int)) :
    repairChunk file c
      = File.Write { file with pos := q } (bePutUint32 c.CalculateCRC) := by
  simp only [repairChunk, hv, Bool.not_false, if_true, hq, Seek_set]

theorem getElem?_encodeChunk_three (c : pngChunk) :
    (encodeChunk c)[3]? = some (toByte c.Length.val) := by
  have h := encodeChunk_append c []
  rw [List.append_nil] at h
  rw [h, List.getElem?_append_left (by rw [length_bePutUint32]; decide)]
  rfl

theorem hugePng_length : hugePng.length = 4294967308 := by
  have h8 : magic.length = 8 := rfl
  unfold hugePng
  rw [List.length_append, length_encodeChunk, hugeChunk_length, hugeChunk_Length, h8]

theorem hugePng_isPng : (isPng (OpenFile hugePng)).1 = true := by
  rw [isPng_spec]
  constructor
  · rw [hugePng_length]
    decide
  · unfold hugePng
    exact List.take_left' rfl

theorem hugePng_readChunks : (readChunks (OpenFile hugePng)).1 = [hugeChunk] := by
  have hnil : encodeChunks [hugeChunk] = encodeChunk hugeChunk := List.append_nil _
  have hr : (OpenFile hugePng).content = magic ++ encodeChunks [hugeChunk] := by
    rw [hnil]
    rfl
  have h := readChunks_layout (OpenFile hugePng) magic [hugeChunk] hr rfl
    (fun c hc => by rw [List.mem_singleton.mp hc]; exact hugeChunk_length)
    (fun c hc => absurd hc (List.not_mem_nil c))
  have hoff : hugeChunk.Offset = 8 := by
    unfold hugeChunk
    exact rfl
  have hl : layout 8 [hugeChunk] = [hugeChunk] := by
    simp only [layout]
    rw [with_Offset_eq hugeChunk 8 hoff]
  rw [h, hl]

theorem main_of_single (content : List Byte) (c : pngChunk) (q : Nat)
    (hpng : (isPng (OpenFile content)).1 = true)
    (hch : (readChunks (OpenFile content)).1 = [c])
    (hv : c.CRCIsValid = false) (hq : c.CRCOffset = (q : Int)) :
    (main content).2.content = writeAt content q (bePutUint32 c.CalculateCRC) := by
  obtain ⟨file, hfc, _, hmain⟩ := main_accepted content hpng
  have h := (readChunks_eq (OpenFile content)).1
  rw [hch] at h
  have h' : chunksFrom content (content.length + 1) 8 = [c] := h.symm
  rw [hmain, h', List.foldl_cons, List.foldl_nil, repairChunk_invalid file c q hv hq]
  simp only [File.Write, hfc]

theorem hugePng_main :
    (main hugePng).2.content = writeAt hugePng 8 (bePutUint32 0xffffffff) := by
  have h := main_of_single hugePng hugeChunk 8 hugePng_isPng hugePng_readChunks
    hugeChunk_CRCIsValid hugeChunk_CRCOffset
  rw [hugeChunk_CalculateCRC] at h
  exact h

theorem hugePng_getElem? : hugePng[11]? = some 0xf8 := by
  have h8 : magic.length = 8 := rfl
  have hb : toByte 4294967288 = 0xf8 := by decide
  unfold hugePng
  rw [List.getElem?_append_right (by rw [h8]; decide), h8]
  show (encodeChunk hugeChunk)[3]? = some 0xf8
  rw [getElem?_encodeChunk_three, hugeChunk_Length, hb]

theorem hugePng_main_getElem? : (main hugePng).2.content[11]? = some 0xff := by
  have hb : (bePutUint32 0xffffffff)[3]? = some 0xff := by decide
  have h := getElem?_writeAt hugePng 8 (bePutUint32 0xffffffff) 3
    (by rw [hugePng_length, length_bePutUint32]; decide)
    (by rw [length_bePutUint32]; decide)
  rw [hugePng_main, ← hb]
  exact h

/-! ## Lemmas: the repair pass on chunks shorter than `2^32 - 8` bytes -/

theorem CRCOffset_exact (p : pngChunk) (hlen : p.Length.val < 4294967288)
    (hlo : -9223372036854775808 ≤ p.Offset + 8 + (p.Length.val : Int))
    (hhi : p.Offset + 8 + (p.Length.val : Int) < 9223372036854775808) :
    p.CRCOffset = p.Offset + 8 + (p.Length.val : Int) := by
  simp only [pngChunk.CRCOffset, wrapInt64]
  omega

theorem getElem?_writeAt_outside (content : List Byte) (pos : Nat) (bs : List Byte) (i : Nat)
    (h : pos + bs.length ≤ content.length) (hi : i < pos ∨ pos + bs.length ≤ i) :
    (writeAt content pos bs)[i]? = content[i]? := by
  have h0 : pos - content.length = 0 := by omega
  have hl : (content.take pos).length = pos := by
    rw [List.length_take]
    omega
  simp only [writeAt, h0, List.replicate_zero, List.append_nil, List.append_assoc]
  rcases hi with hi | hi
  · rw [List.getElem?_append_left (by omega), List.getElem?_take_of_lt hi]
  · rw [List.getElem?_append_right (by omega), hl,
      List.getElem?_append_right (by omega), List.getElem?_drop]
    congr 1
    omega

theorem repairChunk_frame (file : File) (c : pngChunk) (p n i : Nat)
    (hoff : c.Offset = (p : Int)) (hin : p + 12 + c.Length.val ≤ n)
    (hsmall : c.Length.val < 4294967288)
    (hn : n < 9223372036854775808) (hlen : file.content.length = n)
    (hi : c.CRCIsValid = false → i < p + 8 + c.Length.val ∨ p + 8 + c.Length.val + 4 ≤ i) :
    (repairChunk file c).content[i]? = file.content[i]? := by
  by_cases hv : c.CRCIsValid = true
  · simp only [repairChunk, hv, Bool.not_true, Bool.false_eq_true, if_false]
  · have hv' : c.CRCIsValid = false := by simpa using hv
    have hq : c.CRCOffset = ((p + 8 + c.Length.val : Nat) : Int) := by
      rw [CRCOffset_exact c hsmall (by omega) (by omega), hoff]
      push_cast
      rfl
    rw [repairChunk_invalid file c _ hv' hq]
    simp only [File.Write]
    apply getElem?_writeAt_outside
    · rw [length_bePutUint32, hlen]
      omega
    · rw [length_bePutUint32]
      exact hi hv'

theorem repairChunk_length (file : File) (c : pngChunk) (p n : Nat)
    (hoff : c.Offset = (p : Int)) (hin : p + 12 + c.Length.val ≤ n)
    (hn : n < 9223372036854775808) (hlen : file.content.length = n) :
    (repairChunk file c).content.length = n := by
  obtain ⟨q, hq, _, hq4⟩ := CRCOffset_inside c p n hoff hin hn
  by_cases hv : c.CRCIsValid = true
  · simp only [repairChunk, hv, Bool.not_true, Bool.false_eq_true, if_false]
    exact hlen
  · have hv' : c.CRCIsValid = false := by simpa using hv
    rw [repairChunk_invalid file c q hv' hq]
    simp only [File.Write]
    rw [length_writeAt _ _ _ (by rw [length_bePutUint32, hlen]; exact hq4)]
    exact hlen

theorem foldl_repairChunk_frame (chunks : List pngChunk) (n i : Nat)
    (hn : n < 9223372036854775808)
    (hin : ∀ c ∈ chunks, ∃ p : Nat, c.Offset = (p : Int) ∧ p + 12 + c.Length.val ≤ n ∧
      c.Length.val < 4294967288 ∧
      (c.CRCIsValid = false → i < p + 8 + c.Length.val ∨ p + 8 + c.Length.val + 4 ≤ i)) :
    ∀ file : File, file.content.length = n →
      (chunks.foldl repairChunk file).content[i]? = file.content[i]? := by
  induction chunks with
  | nil =>
    intro file _
    rfl
  | cons c cs ih =>
    intro file hlen
    obtain ⟨p, hoff, hp, hsmall, hi⟩ := hin c (List.mem_cons_self _ _)
    have h1 := repairChunk_length file c p n hoff hp hn hlen
    have h2 := repairChunk_frame file c p n i hoff hp hsmall hn hlen hi
    rw [List.foldl_cons, ih (fun x hx => hin x (List.mem_cons_of_mem _ hx)) _ h1, h2]

theorem main_frame (content : List Byte) (i : Nat)
    (hsize : content.length < 9223372036854775808)
    (hpng : (isPng (OpenFile content)).1 = true)
    (hsmall : ∀ c ∈ (readChunks (OpenFile content)).1, c.Length.val < 4294967288)
    (hi : ∀ c ∈ (readChunks (OpenFile content)).1, c.CRCIsValid = false →
      (i : Int) < c.Offset + 8 + (c.Length.val : Int) ∨
      c.Offset + 8 + (c.Length.val : Int) + 4 ≤ (i : Int)) :
    (main content).2.content[i]? = content[i]? := by
  obtain ⟨file, hfc, _, hmain⟩ := main_accepted content hpng
  have hch := (readChunks_eq (OpenFile content)).1
  have hch' : (readChunks (OpenFile content)).1
      = chunksFrom content (content.length + 1) 8 := hch
  rw [hch'] at hsmall hi
  rw [hmain]
  have key := foldl_repairChunk_frame (chunksFrom content (content.length + 1) 8)
    content.length i hsize
    (fun c hc => by
      obtain ⟨p, _, hcp, hle⟩ := chunksFrom_mem content _ 8 c hc
      have hoff : c.Offset = (p : Int) := by rw [hcp]; rfl
      refine ⟨p, hoff, hle, hsmall c hc, ?_⟩
      intro hv
      have := hi c hc hv
      rw [hoff] at this
      omega)
    file (by rw [hfc])
  simp only [] at key ⊢
  rw [key, hfc]

/-! ## Lemmas: the shape of the decoded sequence -/

theorem chunksFrom_succ (content : List Byte) (fuel pos : Nat) :
    chunksFrom content (fuel + 1) pos
      = if 12 + (chunkAt content pos).Length.val ≤ content.length - pos then
          chunkAt content pos :: (if (chunkAt content pos).Typ.toList = endChunk then []
            else chunksFrom content fuel (pos + 12 + (chunkAt content pos).Length.val))
        else [] := rfl

theorem chunksFrom_head (content : List Byte) (fuel pos : Nat) (c : pngChunk)
    (h : (chunksFrom content fuel pos).head? = some c) : c = chunkAt content pos := by
  cases fuel with
  | zero => simp [chunksFrom] at h
  | succ fuel =>
    rw [chunksFrom_succ] at h
    split at h
    · simp only [List.head?_cons, Option.some.injEq] at h
      exact h.symm
    · simp at h

theorem chunksFrom_chain (content : List Byte) (fuel : Nat) :
    ∀ pos : Nat, List.Chain' (fun c d : pngChunk =>
      d.Offset = c.Offset + 12 + (c.Length.val : Int)) (chunksFrom content fuel pos) := by
  induction fuel with
  | zero =>
    intro pos
    simp [chunksFrom]
  | succ fuel ih =>
    intro pos
    rw [chunksFrom_succ]
    split
    · split
      · simp
      · rw [List.chain'_cons']
        refine ⟨?_, ih _⟩
        intro d hd
        have := chunksFrom_head content fuel _ d hd
        rw [this, chunkAt_Offset, chunkAt_Offset]
        push_cast
        rfl
    · simp

theorem chunksFrom_pairwise (content : List Byte) (fuel : Nat) :
    ∀ pos : Nat, List.Pairwise (fun c d : pngChunk =>
      c.Offset + 12 + (c.Length.val : Int) ≤ d.Offset) (chunksFrom content fuel pos) := by
  induction fuel with
  | zero =>
    intro pos
    simp [chunksFrom]
  | succ fuel ih =>
    intro pos
    rw [chunksFrom_succ]
    split
    · split
      · simp
      · rw [List.pairwise_cons]
        refine ⟨?_, ih _⟩
        intro d hd
        obtain ⟨p, hp, hdp, _⟩ := chunksFrom_mem content fuel _ d hd
        rw [hdp, chunkAt_Offset, chunkAt_Offset]
        omega
    · simp

theorem chunksFrom_dropLast (content : List Byte) (fuel : Nat) :
    ∀ pos : Nat, ∀ c ∈ (chunksFrom content fuel pos).dropLast, c.Typ.toList ≠ endChunk := by
  induction fuel with
  | zero =>
    intro pos c hc
    simp [chunksFrom] at hc
  | succ fuel ih =>
    intro pos c hc
    rw [chunksFrom_succ] at hc
    split at hc
    · split at hc
      · simp at hc
      · rename_i hne
        by_cases hnil : chunksFrom content fuel (pos + 12 + (chunkAt content pos).Length.val) = []
        · rw [hnil] at hc
          simp at hc
        · rw [List.dropLast_cons_of_ne_nil hnil] at hc
          rcases List.mem_cons.mp hc with rfl | hc
          · exact hne
          · exact ih _ c hc
    · simp at hc

theorem chunksFrom_sum (content : List Byte) (fuel : Nat) :
    ∀ pos : Nat, ((chunksFrom content fuel pos).map (fun c => 12 + c.Length.val)).sum
      ≤ content.length - pos := by
  induction fuel with
  | zero =>
    intro pos
    simp [chunksFrom]
  | succ fuel ih =>
    intro pos
    rw [chunksFrom_succ]
    split
    · split
      · simp only [List.map_cons, List.map_nil, List.sum_cons, List.sum_nil]
        omega
      · have := ih (pos + 12 + (chunkAt content pos).Length.val)
        simp only [List.map_cons, List.sum_cons]
        omega
    · simp

theorem sum_ge_length (cs : List pngChunk) :
    12 * cs.length ≤ (cs.map (fun c => 12 + c.Length.val)).sum := by
  induction cs with
  | nil => simp
  | cons c cs ih =>
    simp only [List.length_cons, List.map_cons, List.sum_cons]
    omega

theorem chunksFrom_prefix (f g : List Byte) (fuel1 : Nat) :
    ∀ (fuel2 pos : Nat), fuel1 ≤ fuel2 →
      chunksFrom f fuel1 pos <+: chunksFrom (f ++ g) fuel2 pos := by
  induction fuel1 with
  | zero =>
    intro fuel2 pos _
    simp [chunksFrom]
  | succ fuel1 ih =>
    intro fuel2 pos hle
    cases fuel2 with
    | zero => omega
    | succ fuel2 =>
      by_cases hin : 12 + (chunkAt f pos).Length.val ≤ f.length - pos
      · have hat := chunkAt_append f g pos (by omega)
        have hin2 : 12 + (chunkAt f pos).Length.val ≤ (f ++ g).length - pos := by
          rw [List.length_append]
          omega
        rw [chunksFrom_succ, chunksFrom_succ, hat, if_pos hin, if_pos hin2]
        by_cases hc : (chunkAt f pos).Typ.toList = endChunk
        · rw [if_pos hc, if_pos hc]
        · rw [if_neg hc, if_neg hc, List.prefix_cons_inj]
          exact ih fuel2 _ (by omega)
      · rw [chunksFrom_succ, if_neg hin]
        exact List.nil_prefix

theorem readChunksLoop_fuel (fuel1 : Nat) :
    ∀ (fuel2 : Nat) (r : File) (acc : List pngChunk),
      r.content.length - r.pos < fuel1 → r.content.length - r.pos < fuel2 →
      readChunksLoop fuel1 r acc = readChunksLoop fuel2 r acc := by
  induction fuel1 with
  | zero =>
    intro fuel2 r acc h1 _
    omega
  | succ fuel1 ih =>
    intro fuel2 r acc h1 h2
    cases fuel2 with
    | zero => omega
    | succ fuel2 =>
      simp only [readChunksLoop]
      rcases acc.getLast? with _ | last
      · rfl
      · simp only []
        by_cases hend : last.Typ.toList = endChunk
        · simp [hend]
        · simp only [ne_eq, hend, not_false_eq_true, if_true]
          rcases readChunk_cases r with ⟨hok, hr⟩ | ⟨_, r', hr, _, _⟩
          · rw [hr]
            simp only []
            apply ih
            · simp only []
              omega
            · simp only []
              omega
          · rw [hr]

theorem readChunksFuel_eq (fuel : Nat) (r : File) (h : r.content.length ≤ fuel) :
    readChunksFuel fuel r = readChunks r := by
  have hs : r.Seek chunkStartOffset Whence.SEEK_SET = ((8 : Int), { r with pos := 8 }) :=
    Seek_set r 8
  simp only [readChunksFuel, readChunks, hs, List.nil_append]
  rcases readChunk_cases { r with pos := 8 } with ⟨hok, hr⟩ | ⟨_, r', hr, _, _⟩
  · rw [hr]
    simp only [] at hok ⊢
    apply readChunksLoop_fuel
    · simp only []
      omega
    · simp only []
      omega
  · rw [hr]

theorem eq_of_length_four (l : List Byte) (h : l.length = 4) :
    ∃ b0 b1 b2 b3 : Byte, l = [b0, b1, b2, b3] := by
  match l, h with
  | [b0, b1, b2, b3], _ => exact ⟨b0, b1, b2, b3, rfl⟩

theorem length_take_drop (content : List Byte) (p n : Nat) (h : p + n ≤ content.length) :
    ((content.drop p).take n).length = n := by
  rw [List.length_take, List.length_drop]
  omega

theorem chunkAt_mirror (content : List Byte) (p : Nat)
    (h : p + 12 + (chunkAt content p).Length.val ≤ content.length) :
    (content.drop p).take 4 = bePutUint32 (chunkAt content p).Length.val ∧
    (content.drop (p + 4)).take 4 = (chunkAt content p).Typ.toList ∧
    (chunkAt content p).Data.length = (chunkAt content p).Length.val ∧
    (chunkAt content p).Data
      = (content.drop (p + 8)).take (chunkAt content p).Length.val ∧
    (content.drop (p + 8 + (chunkAt content p).Length.val)).take 4
      = bePutUint32 (chunkAt content p).CRC.val := by
  rw [chunkAt_Length] at h
  refine ⟨?_, ?_, ?_, ?_, ?_⟩
  · obtain ⟨b0, b1, b2, b3, hb⟩ := eq_of_length_four _
      (length_take_drop content p 4 (by omega))
    rw [chunkAt_Length, hb, bePutUint32_beUint32]
  · obtain ⟨b0, b1, b2, b3, hb⟩ := eq_of_length_four _
      (length_take_drop content (p + 4) 4 (by omega))
    simp only [chunkAt, hb]
    rfl
  · exact length_take_drop content (p + 4 + 4) _ (by omega)
  · rfl
  · obtain ⟨b0, b1, b2, b3, hb⟩ := eq_of_length_four _
      (length_take_drop content (p + 4 + 4 + (beUint32 ((content.drop p).take 4)).val) 4
        (by omega))
    have hcrc : (chunkAt content p).CRC = beUint32 ((content.drop
        (p + 4 + 4 + (beUint32 ((content.drop p).take 4)).val)).take 4) := rfl
    rw [hcrc, chunkAt_Length]
    have e : p + 8 + (beUint32 ((content.drop p).take 4)).val
        = p + 4 + 4 + (beUint32 ((content.drop p).take 4)).val := by omega
    rw [e, hb, bePutUint32_beUint32]

theorem readChunks_OpenFile (content : List Byte) :
    (readChunks (OpenFile content)).1 = chunksFrom content (content.length + 1) 8 :=
  (readChunks_eq (OpenFile content)).1

theorem readChunks_mem (f : List Byte) (c : pngChunk)
    (hc : c ∈ (readChunks (OpenFile f)).1) :
    ∃ p : Nat, 8 ≤ p ∧ c = chunkAt f p ∧ p + 12 + c.Length.val ≤ f.length := by
  rw [readChunks_OpenFile] at hc
  exact chunksFrom_mem f _ 8 c hc

theorem main_rejected (content : List Byte)
    (h : ¬ (8 ≤ content.length ∧ content.take 8 = magic)) :
    (main content).1 = 1 ∧ (main content).2.content = content ∧ (main content).2.log = [] := by
  have hf : (isPng (OpenFile content)).1 = false := by
    rw [← Bool.not_eq_true, isPng_spec]
    exact h
  have hc := isPng_content (OpenFile content)
  rcases hx : isPng (OpenFile content) with ⟨b, file⟩
  rw [hx] at hf hc
  simp only [] at hf hc
  subst hf
  have hm : main content = (1, file) := by
    simp only [main, hx]
  rw [hm]
  exact ⟨rfl, hc.1, hc.2⟩

theorem Seek_content (f : File) (offset : Int) (whence : Whence) :
    (f.Seek offset whence).2.content = f.content ∧ (f.Seek offset whence).2.log = f.log := by
  unfold File.Seek
  simp only []
  split <;> exact ⟨rfl, rfl⟩

theorem repairChunk_valid (file : File) (c : pngChunk) (hv : c.CRCIsValid = true) :
    repairChunk file c = file := by
  simp only [repairChunk, hv, Bool.not_true, Bool.false_eq_true, if_false]

theorem repairChunk_log (file : File) (c : pngChunk) :
    (repairChunk file c).log.map Prod.snd
      = file.log.map Prod.snd
        ++ (if c.CRCIsValid = true then [] else [bePutUint32 c.CalculateCRC]) := by
  by_cases hv : c.CRCIsValid = true
  · rw [repairChunk_valid file c hv]
    simp [hv]
  · have hv' : c.CRCIsValid = false := by simpa using hv
    have hs := (Seek_content file c.CRCOffset Whence.SEEK_SET).2
    simp only [repairChunk, hv', Bool.not_false, if_true]
    rcases hx : file.Seek c.CRCOffset Whence.SEEK_SET with ⟨x, file'⟩
    rw [hx] at hs
    simp only [] at hs
    simp [File.Write, hs]

theorem foldl_repairChunk_log (chunks : List pngChunk) :
    ∀ file : File, (chunks.foldl repairChunk file).log.map Prod.snd
      = file.log.map Prod.snd
        ++ (chunks.filter (fun c => !c.CRCIsValid)).map (fun c => bePutUint32 c.CalculateCRC) := by
  induction chunks with
  | nil =>
    intro file
    simp
  | cons c cs ih =>
    intro file
    rw [List.foldl_cons, ih, repairChunk_log]
    by_cases hv : c.CRCIsValid = true
    · simp [hv]
    · have hv' : c.CRCIsValid = false := by simpa using hv
      simp [hv']

theorem foldl_repairChunk_valid (chunks : List pngChunk)
    (h : ∀ c ∈ chunks, c.CRCIsValid = true) :
    ∀ file : File, chunks.foldl repairChunk file = file := by
  induction chunks with
  | nil =>
    intro file
    rfl
  | cons c cs ih =>
    intro file
    rw [List.foldl_cons, repairChunk_valid file c (h c (List.mem_cons_self _ _))]
    exact ih (fun x hx => h x (List.mem_cons_of_mem _ hx)) file

theorem main_log (content : List Byte) (hpng : (isPng (OpenFile content)).1 = true) :
    (main content).2.log.map Prod.snd
      = ((readChunks (OpenFile content)).1.filter (fun c => !c.CRCIsValid)).map
          (fun c => bePutUint32 c.CalculateCRC) ∧
    ((∀ c ∈ (readChunks (OpenFile content)).1, c.CRCIsValid = true) →
      (main content).2.log = [] ∧ (main content).2.content = content) := by
  obtain ⟨file, hfc, hfl, hmain⟩ := main_accepted content hpng
  rw [readChunks_OpenFile, hmain]
  constructor
  · simp only []
    rw [foldl_repairChunk_log, hfl]
    simp
  · intro hall
    simp only []
    rw [foldl_repairChunk_valid _ hall]
    exact ⟨hfl, hfc⟩

/-! ## Lemmas: writes at disjoint places -/

theorem getElem?_writeAt_eq (content : List Byte) (pos : Nat) (bs : List Byte) (i : Nat)
    (h : pos + bs.length ≤ content.length) :
    (writeAt content pos bs)[i]?
      = if pos ≤ i ∧ i < pos + bs.length then bs[i - pos]? else content[i]? := by
  by_cases hi : pos ≤ i ∧ i < pos + bs.length
  · rw [if_pos hi]
    have h1 := getElem?_writeAt content pos bs (i - pos) h (by omega)
    rw [Nat.add_sub_cancel' hi.1] at h1
    exact h1
  · rw [if_neg hi]
    exact getElem?_writeAt_outside content pos bs i h (by omega)

theorem writeAt_comm (content : List Byte) (p q : Nat) (a b : List Byte)
    (hp : p + a.length ≤ content.length) (hq : q + b.length ≤ content.length)
    (hd : p + a.length ≤ q ∨ q + b.length ≤ p) :
    writeAt (writeAt content p a) q b = writeAt (writeAt content q b) p a := by
  have la := length_writeAt content p a hp
  have lb := length_writeAt content q b hq
  apply List.ext_getElem?
  intro i
  rw [getElem?_writeAt_eq (writeAt content p a) q b i (by rw [la]; exact hq),
    getElem?_writeAt_eq (writeAt content q b) p a i (by rw [lb]; exact hp),
    getElem?_writeAt_eq content p a i hp, getElem?_writeAt_eq content q b i hq]
  by_cases h1 : q ≤ i ∧ i < q + b.length
  · have h2 : ¬ (p ≤ i ∧ i < p + a.length) := by omega
    rw [if_pos h1, if_neg h2, if_pos h1]
  · rw [if_neg h1, if_neg h1]

theorem writeAt_append (pre old rest new : List Byte) (h : old.length = new.length) :
    writeAt (pre ++ (old ++ rest)) pre.length new = pre ++ (new ++ rest) := by
  have h0 : pre.length - (pre ++ (old ++ rest)).length = 0 := by
    rw [List.length_append]
    omega
  simp only [writeAt, h0, List.replicate_zero, List.append_nil, List.take_left',
    List.append_assoc, List.append_cancel_left_eq]
  rw [← h, List.drop_append]
  exact List.drop_left' rfl

theorem CRCOffset_within (c : pngChunk) (p n : Nat) (hoff : c.Offset = (p : Int))
    (hin : p + 12 + c.Length.val ≤ n) (hn : n < 9223372036854775808) :
    ∃ q : Nat, c.CRCOffset = (q : Int) ∧ p ≤ q ∧ q + 4 ≤ p + 12 + c.Length.val := by
  refine ⟨p + (8 + c.Length.val) % 4294967296, ?_, by omega, ?_⟩
  · have hlt := c.Length.isLt
    simp only [pngChunk.CRCOffset, wrapInt64, hoff]
    omega
  · have hlt := c.Length.isLt
    omega

theorem repairChunk_content (file : File) (c : pngChunk) (h : 0 ≤ c.CRCOffset) :
    (repairChunk file c).content = repairBytes file.content c := by
  by_cases hv : c.CRCIsValid = true
  · rw [repairChunk_valid file c hv]
    simp [repairBytes, hv]
  · have hv' : c.CRCIsValid = false := by simpa using hv
    have hq : c.CRCOffset = ((c.CRCOffset.toNat : Nat) : Int) := (Int.toNat_of_nonneg h).symm
    rw [repairChunk_invalid file c _ hv' hq]
    simp [repairBytes, hv', File.Write]

theorem foldl_repairChunk_content (chunks : List pngChunk)
    (h : ∀ c ∈ chunks, 0 ≤ c.CRCOffset) :
    ∀ file : File, (chunks.foldl repairChunk file).content
      = chunks.foldl repairBytes file.content := by
  induction chunks with
  | nil =>
    intro file
    rfl
  | cons c cs ih =>
    intro file
    rw [List.foldl_cons, List.foldl_cons, ih (fun x hx => h x (List.mem_cons_of_mem _ hx)),
      repairChunk_content file c (h c (List.mem_cons_self _ _))]

theorem repairBytes_length (content : List Byte) (c : pngChunk) (p n : Nat)
    (hoff : c.Offset = (p : Int)) (hin : p + 12 + c.Length.val ≤ n)
    (hn : n < 9223372036854775808) (hlen : content.length = n) :
    (repairBytes content c).length = n := by
  obtain ⟨q, hq, _, hq4⟩ := CRCOffset_within c p n hoff hin hn
  unfold repairBytes
  split
  · rw [hq, Int.toNat_ofNat, length_writeAt _ _ _ (by rw [length_bePutUint32]; omega)]
    exact hlen
  · exact hlen

theorem repairBytes_comm (content : List Byte) (x y : pngChunk) (px py n : Nat)
    (hx : x.Offset = (px : Int)) (hxin : px + 12 + x.Length.val ≤ n)
    (hy : y.Offset = (py : Int)) (hyin : py + 12 + y.Length.val ≤ n)
    (hn : n < 9223372036854775808) (hlen : content.length = n)
    (hd : x = y ∨ px + 12 + x.Length.val ≤ py ∨ py + 12 + y.Length.val ≤ px) :
    repairBytes (repairBytes content x) y = repairBytes (repairBytes content y) x := by
  rcases hd with rfl | hd
  · rfl
  · obtain ⟨qx, hqx, hx1, hx2⟩ := CRCOffset_within x px n hx hxin hn
    obtain ⟨qy, hqy, hy1, hy2⟩ := CRCOffset_within y py n hy hyin hn
    unfold repairBytes
    by_cases hvx : x.CRCIsValid = true <;> by_cases hvy : y.CRCIsValid = true
    · simp [hvx, hvy]
    · simp [hvx, hvy]
    · simp [hvx, hvy]
    · simp only [hvx, hvy, Bool.not_eq_true, Bool.not_false, if_true, hqx, hqy,
        Int.toNat_ofNat]
      apply writeAt_comm
      · rw [length_bePutUint32]; omega
      · rw [length_bePutUint32]; omega
      · rw [length_bePutUint32, length_bePutUint32]; omega

theorem foldl_repairBytes_perm (n : Nat) (hn : n < 9223372036854775808)
    {l1 l2 : List pngChunk} (hperm : l1.Perm l2) :
    (∀ c ∈ l1, ∃ p : Nat, c.Offset = (p : Int) ∧ p + 12 + c.Length.val ≤ n) →
    (∀ x ∈ l1, ∀ y ∈ l1, x = y ∨ x.Offset + 12 + (x.Length.val : Int) ≤ y.Offset
      ∨ y.Offset + 12 + (y.Length.val : Int) ≤ x.Offset) →
    ∀ content : List Byte, content.length = n →
      l1.foldl repairBytes content = l2.foldl repairBytes content := by
  induction hperm with
  | nil =>
    intro _ _ content _
    rfl
  | cons x _ ih =>
    intro hin hdis content hlen
    obtain ⟨p, hoff, hp⟩ := hin x (List.mem_cons_self _ _)
    rw [List.foldl_cons, List.foldl_cons]
    exact ih (fun c hc => hin c (List.mem_cons_of_mem _ hc))
      (fun a ha b hb => hdis a (List.mem_cons_of_mem _ ha) b (List.mem_cons_of_mem _ hb))
      _ (repairBytes_length content x p n hoff hp hn hlen)
  | swap x y l =>
    intro hin hdis content hlen
    have hxm : x ∈ y :: x :: l := List.mem_cons_of_mem _ (List.mem_cons_self _ _)
    have hym : y ∈ y :: x :: l := List.mem_cons_self _ _
    obtain ⟨px, hx, hxin⟩ := hin x hxm
    obtain ⟨py, hy, hyin⟩ := hin y hym
    have hd : x = y ∨ px + 12 + x.Length.val ≤ py ∨ py + 12 + y.Length.val ≤ px := by
      rcases hdis x hxm y hym with h | h
      · exact Or.inl h
      · rw [hx, hy] at h
        exact Or.inr (by omega)
    simp only [List.foldl_cons]
    rw [repairBytes_comm content x y px py n hx hxin hy hyin hn hlen hd]
  | trans h12 _ ih1 ih2 =>
    intro hin hdis content hlen
    rw [ih1 hin hdis content hlen]
    exact ih2 (fun c hc => hin c (h12.mem_iff.mpr hc))
      (fun a ha b hb => hdis a (h12.mem_iff.mpr ha) b (h12.mem_iff.mpr hb)) content hlen

theorem pairwise_or {α : Type} (R : α → α → Prop) (l : List α) (h : l.Pairwise R) :
    ∀ x ∈ l, ∀ y ∈ l, x = y ∨ R x y ∨ R y x := by
  induction h with
  | nil =>
    intro x hx
    simp at hx
  | cons hhead _ ih =>
    intro x hx y hy
    rcases List.mem_cons.mp hx with hx | hx <;> rcases List.mem_cons.mp hy with hy | hy
    · exact Or.inl (hx.trans hy.symm)
    · rw [hx]
      exact Or.inr (Or.inl (hhead y hy))
    · rw [hy]
      exact Or.inr (Or.inr (hhead x hx))
    · exact ih x hx y hy

theorem repair_perm (content : List Byte) (file : File) (chunks : List pngChunk)
    (hsize : content.length < 9223372036854775808)
    (hpng : (isPng (OpenFile content)).1 = true)
    (hfile : file.content = content)
    (hperm : chunks.Perm (readChunks (OpenFile content)).1) :
    (chunks.foldl repairChunk file).content = (main content).2.content := by
  obtain ⟨file0, hfc, _, hmain⟩ := main_accepted content hpng
  rw [readChunks_OpenFile] at hperm
  have hin : ∀ c ∈ chunksFrom content (content.length + 1) 8,
      ∃ p : Nat, c.Offset = (p : Int) ∧ p + 12 + c.Length.val ≤ content.length := by
    intro c hc
    obtain ⟨p, _, hcp, hle⟩ := chunksFrom_mem content _ 8 c hc
    exact ⟨p, by rw [hcp]; rfl, hle⟩
  have hnn : ∀ c ∈ chunksFrom content (content.length + 1) 8, 0 ≤ c.CRCOffset := by
    intro c hc
    obtain ⟨p, hoff, hle⟩ := hin c hc
    obtain ⟨q, hq, _, _⟩ := CRCOffset_inside c p _ hoff hle hsize
    rw [hq]
    exact Int.ofNat_nonneg q
  rw [hmain]
  simp only []
  rw [foldl_repairChunk_content _ hnn file0,
    foldl_repairChunk_content _ (fun c hc => hnn c (hperm.mem_iff.mp hc)) file, hfile, hfc]
  exact (foldl_repairBytes_perm content.length hsize hperm.symm hin
    (pairwise_or _ _ (chunksFrom_pairwise content _ 8)) content rfl).symm

theorem foldl_repairChunk_repairs (l : List pngChunk) (n : Nat)
    (hn : n < 9223372036854775808)
    (hpw : l.Pairwise (fun c d : pngChunk => c.Offset + 12 + (c.Length.val : Int) ≤ d.Offset)) :
    (∀ c ∈ l, ∃ p : Nat, c.Offset = (p : Int) ∧ p + 12 + c.Length.val ≤ n ∧
      c.Length.val < 4294967288) →
    ∀ file : File, file.content.length = n →
    ∀ c ∈ l, c.CRCIsValid = false → ∀ p : Nat, c.Offset = (p : Int) → ∀ j : Nat, j < 4 →
      (l.foldl repairChunk file).content[p + 8 + c.Length.val + j]?
        = (bePutUint32 c.CalculateCRC)[j]? := by
  induction hpw with
  | nil =>
    intro _ file _ c hc
    simp at hc
  | @cons x rest hhead _ ih =>
    intro hin file hlen c hc hv p hoff j hj
    obtain ⟨px, hx, hxin, hxs⟩ := hin x (List.mem_cons_self _ _)
    have hlen1 := repairChunk_length file x px n hx hxin hn hlen
    rw [List.foldl_cons]
    rcases List.mem_cons.mp hc with hcx | hc
    · subst hcx
      have hpp : p = px := by
        rw [hoff] at hx
        exact_mod_cast hx
      subst hpp
      have hfr := foldl_repairChunk_frame rest n (p + 8 + c.Length.val + j) hn
        (fun d hd => by
          obtain ⟨pd, hdo, hdin, hds⟩ := hin d (List.mem_cons_of_mem _ hd)
          refine ⟨pd, hdo, hdin, hds, fun _ => Or.inl ?_⟩
          have := hhead d hd
          rw [hoff, hdo] at this
          omega)
        (repairChunk file c) hlen1
      rw [hfr]
      have hq : c.CRCOffset = ((p + 8 + c.Length.val : Nat) : Int) := by
        rw [CRCOffset_exact c hxs (by omega) (by omega), hoff]
        push_cast
        rfl
      rw [repairChunk_invalid file c _ hv hq]
      simp only [File.Write]
      exact getElem?_writeAt _ _ _ j (by rw [length_bePutUint32, hlen]; omega)
        (by rw [length_bePutUint32]; exact hj)
    · exact ih (fun d hd => hin d (List.mem_cons_of_mem _ hd)) _ hlen1 c hc hv p hoff j hj

theorem main_repairs (content : List Byte)
    (hsize : content.length < 9223372036854775808)
    (hpng : (isPng (OpenFile content)).1 = true)
    (hsmall : ∀ c ∈ (readChunks (OpenFile content)).1, c.Length.val < 4294967288)
    (c : pngChunk) (hc : c ∈ (readChunks (OpenFile content)).1)
    (hv : c.CRCIsValid = false) (p : Nat) (hoff : c.Offset = (p : Int))
    (j : Nat) (hj : j < 4) :
    (main content).2.content[p + 8 + c.Length.val + j]?
      = (bePutUint32 c.CalculateCRC)[j]? := by
  obtain ⟨file, hfc, _, hmain⟩ := main_accepted content hpng
  rw [readChunks_OpenFile] at hsmall hc
  rw [hmain]
  exact foldl_repairChunk_repairs _ content.length hsize (chunksFrom_pairwise content _ 8)
    (fun d hd => by
      obtain ⟨pd, _, hdp, hle⟩ := chunksFrom_mem content _ 8 d hd
      exact ⟨pd, by rw [hdp]; rfl, hle, hsmall d hd⟩)
    file (by rw [hfc]) c hc hv p hoff j hj

/-! ## Lemmas: two runs of `main` on a chunk longer than `2^32 - 8` bytes -/

theorem wrapChunkOf_length (mid : List Byte) (hlen : mid.length = 4294967280) :
    (wrapChunkOf mid).Data.length = (wrapChunkOf mid).Length.val := by
  simp only [wrapChunkOf, List.length_append, List.length_cons, List.length_nil, hlen]

theorem wrapPngOf_length (mid : List Byte) (hlen : mid.length = 4294967280) :
    (wrapPngOf mid).length = 4294967308 := by
  have h8 : magic.length = 8 := rfl
  have hL : (wrapChunkOf mid).Length.val = 4294967288 := rfl
  rw [wrapPngOf, List.length_append, length_encodeChunk, wrapChunkOf_length mid hlen, hL, h8]

theorem isPng_magic_append (rest : List Byte) :
    (isPng (OpenFile (magic ++ rest))).1 = true := by
  rw [isPng_spec]
  constructor
  · rw [List.length_append]
    have h8 : magic.length = 8 := rfl
    omega
  · exact List.take_left' rfl

theorem wrapPngOf_readChunks (mid : List Byte) (hlen : mid.length = 4294967280) :
    (readChunks (OpenFile (wrapPngOf mid))).1 = [wrapChunkOf mid] := by
  have hnil : encodeChunks [wrapChunkOf mid] = encodeChunk (wrapChunkOf mid) :=
    List.append_nil _
  have hr : (OpenFile (wrapPngOf mid)).content = magic ++ encodeChunks [wrapChunkOf mid] := by
    rw [hnil]
    rfl
  have h := readChunks_layout (OpenFile (wrapPngOf mid)) magic [wrapChunkOf mid] hr rfl
    (fun c hc => by rw [List.mem_singleton.mp hc]; exact wrapChunkOf_length mid hlen)
    (fun c hc => absurd hc (List.not_mem_nil c))
  have hl : layout 8 [wrapChunkOf mid] = [wrapChunkOf mid] := by
    simp only [layout]
    rw [with_Offset_eq (wrapChunkOf mid) 8 rfl]
  rw [h, hl]

theorem wrapChunkOf_CalculateCRC (mid : List Byte)
    (hz : mid.foldl (simpleUpdateStep (simpleMakeTable IEEE)) 0 = 0) :
    (wrapChunkOf mid).CalculateCRC = 0 := by
  have h8 : (([0x49, 0x44, 0x41, 0x54] : List Byte) ++ [225, 249, 80, 202]).foldl
      (simpleUpdateStep (simpleMakeTable IEEE)) (0 ^^^ 0xffffffff) = 0 := by decide
  have hB : ([98, 245, 38, 146] : List Byte).foldl
      (simpleUpdateStep (simpleMakeTable IEEE)) 0 = 0xffffffff := by decide
  have hfin : (0xffffffff : Nat) ^^^ 0xffffffff = 0 := by decide
  have hT : (wrapChunkOf mid).Typ.toList = [0x49, 0x44, 0x41, 0x54] := rfl
  have hD : (wrapChunkOf mid).Data = [225, 249, 80, 202] ++ (mid ++ [98, 245, 38, 146]) := rfl
  rw [CalculateCRC_eq_foldl, hD, hT, ← List.append_assoc, List.foldl_append, h8,
    List.foldl_append, hz, hB, hfin]

theorem wrapPngOf_main (mid : List Byte) (hlen : mid.length = 4294967280)
    (hz : mid.foldl (simpleUpdateStep (simpleMakeTable IEEE)) 0 = 0) :
    (main (wrapPngOf mid)).2.content
      = magic ++ (encodeChunk shortChunk ++ (mid ++ [98, 245, 38, 146, 0, 0, 0, 1])) := by
  have hcrc := wrapChunkOf_CalculateCRC mid hz
  have hv : (wrapChunkOf mid).CRCIsValid = false := by
    rw [CRCIsValid_eq, hcrc]
    rfl
  have hO : (wrapChunkOf mid).Offset = 8 := rfl
  have hL : (wrapChunkOf mid).Length.val = 4294967288 := rfl
  have hq : (wrapChunkOf mid).CRCOffset = ((8 : Nat) : Int) := by
    rw [CRCOffset_eq, hO, hL]
    decide
  have h := main_of_single (wrapPngOf mid) (wrapChunkOf mid) 8 (isPng_magic_append _)
    (wrapPngOf_readChunks mid hlen) hv hq
  rw [hcrc] at h
  rw [h]
  have hD : (wrapChunkOf mid).Data = [225, 249, 80, 202] ++ (mid ++ [98, 245, 38, 146]) := rfl
  have hC1 : (wrapChunkOf mid).CRC.val = 1 := rfl
  have hC : bePutUint32 1 = [0, 0, 0, 1] := by decide
  have hS : bePutUint32 shortChunk.CRC.val = [225, 249, 80, 202] := by decide
  have hSL : shortChunk.Length.val = 0 := rfl
  have hST : shortChunk.Typ = (wrapChunkOf mid).Typ := rfl
  have hSD : shortChunk.Data = [] := rfl
  have e1 : wrapPngOf mid = magic ++ (encodeChunk (wrapChunkOf mid) ++ []) := by
    rw [List.append_nil]
    rfl
  have h8 : magic.length = 8 := rfl
  rw [e1, encodeChunk_append, ← h8,
    writeAt_append magic (bePutUint32 (wrapChunkOf mid).Length.val) _ (bePutUint32 0)
      ((length_bePutUint32 _).trans (length_bePutUint32 _).symm),
    encodeChunk_append, hSL, hST, hSD, hS, hD, hC1, hC]
  simp

theorem wrapPngOf_main_eq (mid : List Byte) (hlen : mid.length = 4294967280)
    (hz : mid.foldl (simpleUpdateStep (simpleMakeTable IEEE)) 0 = 0) :
    (main (wrapPngOf mid)).2.content = repairedPngOf mid :=
  wrapPngOf_main mid hlen hz

theorem repairedPngOf_length (mid : List Byte) (hlen : mid.length = 4294967280) :
    (repairedPngOf mid).length = 4294967308 := by
  have h8 : magic.length = 8 := rfl
  have hd : shortChunk.Data.length = 0 := rfl
  simp only [repairedPngOf, List.length_append, length_encodeChunk, hd, hlen, h8,
    List.length_cons, List.length_nil]

theorem repairedPngOf_chunkAt (mid : List Byte) :
    chunkAt (repairedPngOf mid) 8 = shortChunk := by
  have h := chunkAt_encode magic (mid ++ [98, 245, 38, 146, 0, 0, 0, 1]) shortChunk rfl
  have h8 : magic.length = 8 := rfl
  rw [h8] at h
  rw [repairedPngOf, h]
  exact with_Offset_eq shortChunk _ rfl

theorem repairedPngOf_mem (mid : List Byte) (hlen : mid.length = 4294967280) :
    shortChunk ∈ (readChunks (OpenFile (repairedPngOf mid))).1 := by
  have hL : shortChunk.Length.val = 0 := rfl
  rw [readChunks_OpenFile, chunksFrom_succ, repairedPngOf_chunkAt, if_pos]
  · exact List.mem_cons_self _ _
  · rw [hL, repairedPngOf_length mid hlen]
    decide

theorem repairedPngOf_small (mid : List Byte) (hlen : mid.length = 4294967280) :
    ∀ c ∈ (readChunks (OpenFile (repairedPngOf mid))).1, c.Length.val < 4294967288 := by
  intro c hc
  obtain ⟨p, hp, hcp, hle⟩ := readChunks_mem _ c hc
  rw [repairedPngOf_length mid hlen] at hle
  by_cases h8 : p = 8
  · rw [hcp, h8, repairedPngOf_chunkAt]
    decide
  · omega

theorem shortChunk_invalid : shortChunk.CRCIsValid = false := by
  decide

theorem repairedPngOf_getElem? (mid : List Byte) :
    (repairedPngOf mid)[16]? = some 225 := by
  simp [repairedPngOf, magic, encodeChunk, shortChunk, bePutUint32, Bytes4.toList, typeIDAT]
  decide

theorem repairedPngOf_main (mid : List Byte) (hlen : mid.length = 4294967280) :
    (main (repairedPngOf mid)).2.content[16]? = some 0x35 ∧
    (main (repairedPngOf mid)).2.log ≠ [] := by
  have hb : (bePutUint32 shortChunk.CalculateCRC)[0]? = some 0x35 := by decide
  have hsize : (repairedPngOf mid).length < 9223372036854775808 := by
    rw [repairedPngOf_length mid hlen]
    decide
  have hpng : (isPng (OpenFile (repairedPngOf mid))).1 = true := isPng_magic_append _
  constructor
  · have h := main_repairs (repairedPngOf mid) hsize hpng (repairedPngOf_small mid hlen)
      shortChunk (repairedPngOf_mem mid hlen) shortChunk_invalid 8 rfl 0 (by decide)
    rw [hb] at h
    exact h
  · intro hnil
    have hlog := (main_log (repairedPngOf mid) hpng).1
    rw [hnil] at hlog
    have hmem : shortChunk ∈ (readChunks (OpenFile (repairedPngOf mid))).1.filter
        (fun c => !c.CRCIsValid) := by
      rw [List.mem_filter]
      exact ⟨repairedPngOf_mem mid hlen, by rw [shortChunk_invalid]; rfl⟩
    have := List.mem_map_of_mem (fun c => bePutUint32 c.CalculateCRC) hmem
    rw [← hlog] at this
    simp at this

theorem wrapPngOf_two_runs (mid : List Byte) (hlen : mid.length = 4294967280)
    (hz : mid.foldl (simpleUpdateStep (simpleMakeTable IEEE)) 0 = 0) :
    (isPng (OpenFile (wrapPngOf mid))).1 = true ∧
    (main (wrapPngOf mid)).2.content[16]? = some 225 ∧
    (main (main (wrapPngOf mid)).2.content).2.content[16]? = some 0x35 ∧
    (main (main (wrapPngOf mid)).2.content).2.log ≠ [] := by
  rw [wrapPngOf_main_eq mid hlen hz]
  exact ⟨isPng_magic_append _, repairedPngOf_getElem? mid, (repairedPngOf_main mid hlen).1,
    (repairedPngOf_main mid hlen).2⟩

theorem hugePng2_eq : hugePng2 = wrapPngOf (List.replicate 4294967280 (0 : Byte)) := rfl

theorem hugePng2_two_runs :
    (isPng (OpenFile hugePng2)).1 = true ∧
    (main hugePng2).2.content[16]? = some 225 ∧
    (main (main hugePng2).2.content).2.content[16]? = some 0x35 ∧
    (main (main hugePng2).2.content).2.log ≠ [] := by
  rw [hugePng2_eq]
  exact wrapPngOf_two_runs _ (List.length_replicate _ _) (foldl_simpleUpdateStep_zeros _)

theorem getElem?_encodeChunk_crc (pre : List Byte) (c : pngChunk) (j : Nat) :
    (pre ++ encodeChunk c)[pre.length + (8 + c.Data.length) + j]?
      = (bePutUint32 c.CRC.val)[j]? := by
  have hl : (bePutUint32 c.Length.val ++ c.Typ.toList ++ c.Data).length = 8 + c.Data.length := by
    simp only [List.length_append, length_bePutUint32, length_toList]
  rw [List.getElem?_append_right (by omega), encodeChunk,
    List.getElem?_append_right (by rw [hl]; omega), hl]
  congr 1
  omega

theorem hugePng_crc_field : hugePng[4294967304]? = some 0 := by
  have h8 : magic.length = 8 := rfl
  have hcrc : hugeChunk.CRC.val = 0 := by
    unfold hugeChunk
    exact rfl
  have hb : (bePutUint32 0)[0]? = some (0 : Byte) := by decide
  have hidx : (4294967304 : Nat) = 8 + (8 + 4294967288) + 0 := by decide
  have h := getElem?_encodeChunk_crc magic hugeChunk 0
  rw [h8, hugeChunk_length, hugeChunk_Length, hcrc, hb, ← hidx] at h
  exact h

theorem hugePng_main_crc_field : (main hugePng).2.content[4294967304]? = some 0 := by
  rw [hugePng_main, getElem?_writeAt_outside hugePng 8 _ 4294967304
    (by rw [hugePng_length, length_bePutUint32]; decide)
    (Or.inr (by rw [length_bePutUint32]; decide))]
  exact hugePng_crc_field

theorem hugePng_main_readChunks :
    (readChunks (OpenFile (main hugePng).2.content)).1 = [] := by
  have h8 : magic.length = 8 := rfl
  have e1 : hugePng = magic ++ (encodeChunk hugeChunk ++ []) := by
    rw [List.append_nil]
    rfl
  have hw : writeAt hugePng 8 (bePutUint32 0xffffffff)
      = magic ++ (bePutUint32 0xffffffff ++ (hugeChunk.Typ.toList
          ++ (hugeChunk.Data ++ (bePutUint32 hugeChunk.CRC.val ++ [])))) := by
    rw [e1, encodeChunk_append, ← h8,
      writeAt_append magic (bePutUint32 hugeChunk.Length.val) _ (bePutUint32 0xffffffff)
        ((length_bePutUint32 _).trans (length_bePutUint32 _).symm)]
  have hlen : (writeAt hugePng 8 (bePutUint32 0xffffffff)).length = 4294967308 := by
    rw [length_writeAt _ _ _ (by rw [hugePng_length, length_bePutUint32]; decide),
      hugePng_length]
  have hL : (chunkAt (writeAt hugePng 8 (bePutUint32 0xffffffff)) 8).Length.val
      = 4294967295 := by
    have ht := take_drop_append_mid magic (bePutUint32 0xffffffff) (hugeChunk.Typ.toList
      ++ (hugeChunk.Data ++ (bePutUint32 hugeChunk.CRC.val ++ [])))
    rw [h8, length_bePutUint32] at ht
    have hbe := beUint32_bePutUint32 ⟨4294967295, by decide⟩
    rw [chunkAt_Length, hw, ht]
    exact congrArg Fin.val hbe
  rw [hugePng_main, readChunks_OpenFile, chunksFrom_succ, if_neg]
  rw [hL, hlen]
  decide

/-! ## The claims -/

/-- C1. For every chunk descriptor `p`, `CalculateCRC` is the reference CRC-32 (reflected
polynomial `0xEDB88320`, initial value `0xFFFFFFFF`, final complement) of the 4 bytes of
`p.Type` followed by the bytes of `p.Data`, and replacing `Offset`, `Length` and `CRC` by any
other values leaves it unchanged. -/
theorem CalculateCRC_eq_reference (p : pngChunk) (Offset : Int) (Length CRC : Word32) :
    p.CalculateCRC = crc32Reference (p.Typ.toList ++ p.Data) ∧
    ({ p with Offset := Offset, Length := Length, CRC := CRC } : pngChunk).CalculateCRC
      = p.CalculateCRC :=
  ⟨Checksum_eq_reference _, rfl⟩

/-- C2. `CalculateCRC` gives `0xAE426082` for the chunk of type `"IEND"` with empty data and
`0xCBF43926` for the chunk of type `"1234"` with data `"56789"`, whatever the other fields. -/
theorem CalculateCRC_test_vectors (Offset : Int) (Length CRC : Word32) :
    (pngChunk.mk Offset Length ⟨0x49, 0x45, 0x4e, 0x44⟩ [] CRC).CalculateCRC = 0xAE426082 ∧
    (pngChunk.mk Offset Length ⟨0x31, 0x32, 0x33, 0x34⟩ [0x35, 0x36, 0x37, 0x38, 0x39]
      CRC).CalculateCRC = 0xCBF43926 := by
  constructor
  · show Checksum [0x49, 0x45, 0x4e, 0x44] (simpleMakeTable IEEE) = 0xAE426082
    decide
  · show Checksum [0x31, 0x32, 0x33, 0x34, 0x35, 0x36, 0x37, 0x38, 0x39] (simpleMakeTable IEEE)
      = 0xCBF43926
    decide

/-- C3, at the failing input. For the descriptor with `Offset` 8 and `Length` `0xFFFFFFF8` the
`uint32` sum `8 + Length` wraps to 0, so `CRCOffset` is 8 and not `Offset + 8 + Length`,
which is 4294967304. -/
theorem CRCOffset_wraps_uint32 :
    wrapChunk.CRCOffset = 8 ∧
    wrapChunk.Offset + 8 + (wrapChunk.Length.val : Int) = 4294967304 ∧
    wrapChunk.CRCOffset ≠ wrapChunk.Offset + 8 + (wrapChunk.Length.val : Int) := by
  decide

/-- C4. For a byte source `s` read from its start, `isPng` returns `true` exactly when `s`
has at least 8 bytes and its first 8 bytes are `89 50 4E 47 0D 0A 1A 0A`; on a shorter source
it returns `false`. -/
theorem isPng_iff (s : List Byte) :
    (isPng (OpenFile s)).1 = true ↔ 8 ≤ s.length ∧ s.take 8 = magic :=
  isPng_spec s

/-- C5. Decoding undoes the chunk layout: for any 8 bytes `h` and any chunks `cs` whose
`Data` has exactly `Length` bytes and of which none but possibly the last is `"IEND"`,
`readChunks` on `h` followed by the layout of `cs` returns `cs` in order with the same
`Length`, `Type`, `Data` and `CRC`, the first at offset 8 and each later one 12 + `Length`
bytes after the one before. -/
theorem readChunks_encodeChunks (r : File) (h : List Byte) (cs : List pngChunk)
    (hr : r.content = h ++ encodeChunks cs) (hh : h.length = 8)
    (hdata : ∀ c ∈ cs, c.Data.length = c.Length.val)
    (hend : ∀ c ∈ cs.dropLast, c.Typ.toList ≠ endChunk) :
    (readChunks r).1 = layout 8 cs :=
  readChunks_layout r h cs hr hh hdata hend

/-- C5 at a concrete file: the signature followed by `IHDR`, `IDAT`, `IEND`. -/
theorem readChunks_encodeChunks_witness :
    (readChunks (OpenFile samplePng)).1 = layout 8 [sampleIHDR, sampleIDAT, sampleIEND] :=
  readChunks_encodeChunks (OpenFile samplePng) magic [sampleIHDR, sampleIDAT, sampleIEND]
    rfl (by decide) (by decide) (by decide)

/-- C6. Terminal-chunk stop: when the chunks decoded from `f` are non-empty and end with an
`"IEND"` chunk that ends at the end of `f`, appending any bytes `g` to `f` does not change
what `readChunks` decodes. -/
theorem readChunks_append_after_IEND (f g : List Byte) (last : pngChunk)
    (_hne : (readChunks (OpenFile f)).1 ≠ [])
    (hlast : (readChunks (OpenFile f)).1.getLast? = some last)
    (hend : last.Typ.toList = endChunk)
    (_hpos : last.Offset + 12 + (last.Length.val : Int) = (f.length : Int)) :
    (readChunks (OpenFile (f ++ g))).1 = (readChunks (OpenFile f)).1 := by
  rw [(readChunks_eq _).1] at hlast ⊢
  rw [(readChunks_eq _).1]
  exact chunksFrom_append_of_end f g _ _ 8 last
    (by simp only [OpenFile]; omega) hlast hend

/-- C6 at a concrete file: the sample file followed by three stray bytes. -/
theorem readChunks_append_after_IEND_witness :
    (readChunks (OpenFile (samplePng ++ [1, 2, 3]))).1 = (readChunks (OpenFile samplePng)).1 :=
  readChunks_append_after_IEND samplePng [1, 2, 3] { sampleIEND with Offset := 48 }
    (by decide) (by decide) (by decide) (by decide)

/-- C7. Truncation tolerance: on 8 bytes, then one whole chunk `c`, then fewer than 4 further
bytes, `readChunks` returns exactly one descriptor, `c` at offset 8. -/
theorem readChunks_truncated_header (r : File) (sig : List Byte) (c : pngChunk)
    (t : List Byte) (hr : r.content = sig ++ encodeChunk c ++ t) (hsig : sig.length = 8)
    (hd : c.Data.length = c.Length.val) (ht : t.length < 4) :
    (readChunks r).1 = [{ c with Offset := 8 }] := by
  have hc : r.content = sig ++ (encodeChunks [c] ++ t) := by
    simp only [encodeChunks, List.append_nil, hr, List.append_assoc]
  have key := chunksFrom_encode [c] sig t (r.content.length + 1)
    (by simpa using hd) (by simp)
    (fun _ => by
      simp only [List.length_append]
      omega)
    (by simp)
  rw [(readChunks_eq r).1]
  rw [← hc, hsig] at key
  exact key

/-- C7 at a concrete file: the signature, `IHDR`, and three more bytes. -/
theorem readChunks_truncated_header_witness :
    (readChunks (OpenFile (magic ++ encodeChunk sampleIHDR ++ [0, 0, 0]))).1
      = [{ sampleIHDR with Offset := 8 }] :=
  readChunks_truncated_header (OpenFile (magic ++ encodeChunk sampleIHDR ++ [0, 0, 0])) magic
    sampleIHDR [0, 0, 0] rfl (by decide) (by decide) (by decide)

/-- C8. Overstated length: on 8 bytes, then `k` whole chunks `cs` none of which is `"IEND"`,
then a header whose length field `L` exceeds the number of bytes left after its type,
`readChunks` returns exactly the `k` chunks before that header. -/
theorem readChunks_overstated_length (r : File) (sig : List Byte) (cs : List pngChunk)
    (L : Word32) (ty : Bytes4) (rest : List Byte)
    (hr : r.content = sig ++ encodeChunks cs ++ (bePutUint32 L.val ++ ty.toList ++ rest))
    (hsig : sig.length = 8)
    (hdata : ∀ c ∈ cs, c.Data.length = c.Length.val)
    (hend : ∀ c ∈ cs, c.Typ.toList ≠ endChunk)
    (hL : rest.length < L.val) :
    (readChunks r).1 = layout 8 cs := by
  have hc : r.content
      = sig ++ (encodeChunks cs ++ (bePutUint32 L.val ++ ty.toList ++ rest)) := by
    rw [hr, List.append_assoc]
  have hlen : beUint32 (((sig ++ (encodeChunks cs
      ++ (bePutUint32 L.val ++ ty.toList ++ rest))).drop
        (sig.length + (encodeChunks cs).length)).take 4) = L := by
    have h := take_drop_append_mid (sig ++ encodeChunks cs) (bePutUint32 L.val)
      (ty.toList ++ rest)
    simp only [List.length_append, length_bePutUint32, List.append_assoc] at h
    rw [List.append_assoc, h, beUint32_bePutUint32]
  have key := chunksFrom_encode cs sig (bePutUint32 L.val ++ ty.toList ++ rest)
    (r.content.length + 1) hdata
    (fun c hc => hend c (List.mem_of_mem_dropLast hc))
    (fun _ => by
      rw [chunkAt_Length, hlen]
      simp only [List.length_append, length_bePutUint32, length_toList]
      omega)
    (by
      have := length_encodeChunks_ge cs
      rw [hr, List.length_append, List.length_append]
      omega)
  rw [(readChunks_eq r).1]
  rw [← hc, hsig] at key
  exact key

/-- C8 at a concrete file: the signature, `IHDR`, then a header announcing 5 bytes with
only 2 bytes left. -/
theorem readChunks_overstated_length_witness :
    (readChunks (OpenFile (magic ++ encodeChunks [sampleIHDR]
      ++ (bePutUint32 (5 : Word32).val ++ typeIDAT.toList ++ [1, 2])))).1
      = layout 8 [sampleIHDR] :=
  readChunks_overstated_length
    (OpenFile (magic ++ encodeChunks [sampleIHDR]
      ++ (bePutUint32 (5 : Word32).val ++ typeIDAT.toList ++ [1, 2])))
    magic [sampleIHDR] 5 typeIDAT [1, 2] rfl (by decide) (by decide) (by decide) (by decide)

/-- C9, at the failing input. The 4 GiB file `hugePng` passes the signature check and decodes
to the single chunk `hugeChunk`, whose stored CRC is wrong and whose CRC field starts at
`Offset + 8 + Length` = 4294967304. Byte 11 of the file, the last byte of the chunk's length
field and far before its CRC field, is `0xF8` before `main` and `0xFF` after it: the CRC was
written at `CRCOffset` = 8, over the length field. -/
theorem main_overwrites_length_field :
    (isPng (OpenFile hugePng)).1 = true ∧
    (readChunks (OpenFile hugePng)).1 = [hugeChunk] ∧
    hugeChunk.CRCIsValid = false ∧
    hugeChunk.CRCOffset = 8 ∧
    (11 : Int) < hugeChunk.Offset + 8 + (hugeChunk.Length.val : Int) ∧
    hugePng[11]? = some 0xf8 ∧
    (main hugePng).2.content[11]? = some 0xff := by
  refine ⟨hugePng_isPng, hugePng_readChunks, hugeChunk_CRCIsValid, hugeChunk_CRCOffset, ?_,
    hugePng_getElem?, hugePng_main_getElem?⟩
  have hoff : hugeChunk.Offset = 8 := by
    unfold hugeChunk
    exact rfl
  rw [hoff, hugeChunk_Length]
  decide

/-- C10. Repair never changes the file length: for a file accepted by the signature check
(of a size below `2^63`, as every file position is an `int64`), the file after `main` has as
many bytes as before, and every write that was issued lies inside the file. -/
theorem main_preserves_length (content : List Byte)
    (hsize : content.length < 9223372036854775808)
    (hpng : (isPng (OpenFile content)).1 = true) :
    (main content).2.content.length = content.length ∧
    ∀ w ∈ (main content).2.log, w.1 + w.2.length ≤ content.length :=
  main_length content hsize hpng

/-- C10 at a concrete file: the sample file, two of whose chunks get a new CRC. -/
theorem main_preserves_length_witness :
    (main samplePng).2.content.length = samplePng.length ∧
    ∀ w ∈ (main samplePng).2.log, w.1 + w.2.length ≤ samplePng.length :=
  main_preserves_length samplePng (by decide) (by decide)

/-- C11, at the failing input. The 4 GiB file `hugePng` decodes to the single chunk
`hugeChunk`, whose stored CRC is wrong; its CRC field starts at `Offset + 8 + Length` =
4294967304 and should receive `FF FF FF FF`, the computed CRC. After `main` the byte at
4294967304 is still `00`, and decoding the repaired file no longer yields the chunk: it
yields nothing, because the CRC was written over the length field. -/
theorem main_leaves_wrong_crc :
    (isPng (OpenFile hugePng)).1 = true ∧
    (readChunks (OpenFile hugePng)).1 = [hugeChunk] ∧
    hugeChunk.CRCIsValid = false ∧
    hugeChunk.Offset + 8 + (hugeChunk.Length.val : Int) = 4294967304 ∧
    bePutUint32 hugeChunk.CalculateCRC = [0xff, 0xff, 0xff, 0xff] ∧
    (main hugePng).2.content[4294967304]? = some 0 ∧
    (readChunks (OpenFile (main hugePng).2.content)).1 = [] := by
  refine ⟨hugePng_isPng, hugePng_readChunks, hugeChunk_CRCIsValid, ?_, ?_,
    hugePng_main_crc_field, hugePng_main_readChunks⟩
  · have hoff : hugeChunk.Offset = 8 := by
      unfold hugeChunk
      exact rfl
    rw [hoff, hugeChunk_Length]
    decide
  · rw [hugeChunk_CalculateCRC]
    decide

/-- C12, at the failing input. The 4 GiB file `hugePng2` passes the signature check. Its first
run of `main` leaves `0xE1` at byte 16; a second run of `main` on the result writes again and
leaves `0x35` there, so the second run is not free of writes and changes the file. -/
theorem main_not_idempotent :
    (isPng (OpenFile hugePng2)).1 = true ∧
    (main hugePng2).2.content[16]? = some 225 ∧
    (main (main hugePng2).2.content).2.content[16]? = some 0x35 ∧
    (main (main hugePng2).2.content).2.log ≠ [] :=
  hugePng2_two_runs

/-- C13. No write on a correct file: for an accepted file, the values written by the repair
pass are, in order, the computed CRCs of exactly the decoded chunks whose stored CRC differs
from `CalculateCRC`; when every decoded chunk has a valid CRC nothing is written and the file
is byte-identical. -/
theorem main_writes_iff_invalid (content : List Byte)
    (hpng : (isPng (OpenFile content)).1 = true) :
    (main content).2.log.map Prod.snd
      = ((readChunks (OpenFile content)).1.filter (fun c => !c.CRCIsValid)).map
          (fun c => bePutUint32 c.CalculateCRC) ∧
    ((∀ c ∈ (readChunks (OpenFile content)).1, c.CRCIsValid = true) →
      (main content).2.log = [] ∧ (main content).2.content = content) :=
  main_log content hpng

/-- C13 at a concrete file whose only chunk is valid: nothing is written. -/
theorem main_writes_iff_invalid_witness :
    (main validPng).2.log = [] ∧ (main validPng).2.content = validPng :=
  (main_writes_iff_invalid validPng (by decide)).2 (by decide)

/-- C14. Signature gate: on a file whose first 8 bytes are not `89 50 4E 47 0D 0A 1A 0A`
(a file shorter than 8 bytes included) `main` exits with status 1, has written nothing and
leaves the file byte-identical. -/
theorem main_signature_gate (content : List Byte)
    (h : ¬ (8 ≤ content.length ∧ content.take 8 = magic)) :
    (main content).1 = 1 ∧ (main content).2.content = content ∧ (main content).2.log = [] :=
  main_rejected content h

/-- C14 at a concrete file: the sample file with its first byte dropped. -/
theorem main_signature_gate_witness :
    (main samplePng.tail).1 = 1 ∧ (main samplePng.tail).2.content = samplePng.tail ∧
      (main samplePng.tail).2.log = [] :=
  main_signature_gate samplePng.tail (by decide)

/-- C15. Decoded descriptors mirror the file: every descriptor `c` of `readChunks f` starts at
a position `p = c.Offset` of `f` where the 4 bytes are the big-endian `c.Length`, the next 4
are `c.Type`, the next `c.Length` bytes are `c.Data`, and the 4 bytes after them are the
big-endian `c.CRC`; the whole chunk lies inside the file. -/
theorem readChunks_mirror (f : List Byte) (c : pngChunk)
    (hc : c ∈ (readChunks (OpenFile f)).1) :
    ∃ p : Nat, c.Offset = (p : Int) ∧
      (f.drop p).take 4 = bePutUint32 c.Length.val ∧
      (f.drop (p + 4)).take 4 = c.Typ.toList ∧
      c.Data.length = c.Length.val ∧
      c.Data = (f.drop (p + 8)).take c.Length.val ∧
      (f.drop (p + 8 + c.Length.val)).take 4 = bePutUint32 c.CRC.val ∧
      p + 8 + c.Length.val + 4 ≤ f.length := by
  obtain ⟨p, _, hcp, hle⟩ := readChunks_mem f c hc
  subst hcp
  obtain ⟨h1, h2, h3, h4, h5⟩ := chunkAt_mirror f p hle
  exact ⟨p, rfl, h1, h2, h3, h4, h5, by omega⟩

/-- C15 at a concrete descriptor: the `IDAT` chunk of the sample file, at offset 33. -/
theorem readChunks_mirror_witness :
    ∃ p : Nat, ({ sampleIDAT with Offset := 33 } : pngChunk).Offset = (p : Int) ∧
      (samplePng.drop p).take 4 = bePutUint32 sampleIDAT.Length.val ∧
      (samplePng.drop (p + 4)).take 4 = sampleIDAT.Typ.toList ∧
      sampleIDAT.Data.length = sampleIDAT.Length.val ∧
      sampleIDAT.Data = (samplePng.drop (p + 8)).take sampleIDAT.Length.val ∧
      (samplePng.drop (p + 8 + sampleIDAT.Length.val)).take 4
        = bePutUint32 sampleIDAT.CRC.val ∧
      p + 8 + sampleIDAT.Length.val + 4 ≤ samplePng.length :=
  readChunks_mirror samplePng { sampleIDAT with Offset := 33 } (by decide)

/-- C16. Order of repair is immaterial: for an accepted file (of a size below `2^63`),
running the repair step of `main` over any permutation of the decoded chunks, on a handle of
that file, leaves the same bytes on disk as `main`, which runs it in file order. -/
theorem repair_order_immaterial (content : List Byte) (file : File) (chunks : List pngChunk)
    (hsize : content.length < 9223372036854775808)
    (hpng : (isPng (OpenFile content)).1 = true)
    (hfile : file.content = content)
    (hperm : chunks.Perm (readChunks (OpenFile content)).1) :
    (chunks.foldl repairChunk file).content = (main content).2.content :=
  repair_perm content file chunks hsize hpng hfile hperm

/-- C16 at a concrete file: the chunks of the sample file repaired last to first. -/
theorem repair_order_immaterial_witness :
    ((readChunks (OpenFile samplePng)).1.reverse.foldl repairChunk (OpenFile samplePng)).content
      = (main samplePng).2.content :=
  repair_order_immaterial samplePng (OpenFile samplePng)
    (readChunks (OpenFile samplePng)).1.reverse (by decide) (by decide) rfl
    (List.reverse_perm _)

/-- C17. `readChunks` terminates and its output is bounded by the file: any bound on the
number of loop iterations that is at least the length of the file gives the result of
`readChunks`, the chunks decoded take `12 + Length` bytes each and together at most the bytes
after the signature, so there are at most `(|f| - 8) / 12` of them, and none when fewer than
12 bytes follow the signature. -/
theorem readChunks_terminates_bounded (f : List Byte) (fuel : Nat) (hfuel : f.length ≤ fuel) :
    readChunksFuel fuel (OpenFile f) = readChunks (OpenFile f) ∧
    ((readChunks (OpenFile f)).1.map (fun c => 12 + c.Length.val)).sum ≤ f.length - 8 ∧
    (readChunks (OpenFile f)).1.length ≤ (f.length - 8) / 12 ∧
    (f.length - 8 < 12 → (readChunks (OpenFile f)).1 = []) := by
  have hsum := chunksFrom_sum f (f.length + 1) 8
  have hlen := sum_ge_length (chunksFrom f (f.length + 1) 8)
  rw [readChunks_OpenFile]
  refine ⟨readChunksFuel_eq fuel (OpenFile f) hfuel, hsum, ?_, ?_⟩
  · rw [Nat.le_div_iff_mul_le (by decide)]
    omega
  · intro hshort
    apply List.eq_nil_of_length_eq_zero
    omega

/-- C17 at a concrete file and bound: the sample file with 1000 iterations allowed. -/
theorem readChunks_terminates_bounded_witness :
    readChunksFuel 1000 (OpenFile samplePng) = readChunks (OpenFile samplePng) ∧
    ((readChunks (OpenFile samplePng)).1.map (fun c => 12 + c.Length.val)).sum
      ≤ samplePng.length - 8 ∧
    (readChunks (OpenFile samplePng)).1.length ≤ (samplePng.length - 8) / 12 ∧
    (samplePng.length - 8 < 12 → (readChunks (OpenFile samplePng)).1 = []) :=
  readChunks_terminates_bounded samplePng 1000 (by decide)

/-- C18. Decoding is monotone in the file prefix: when `f'` is a prefix of `f`, the
descriptors decoded from `f'` are a prefix of those decoded from `f`, offsets included. -/
theorem readChunks_prefix (f' f : List Byte) (h : f' <+: f) :
    (readChunks (OpenFile f')).1 <+: (readChunks (OpenFile f)).1 := by
  obtain ⟨g, rfl⟩ := h
  rw [readChunks_OpenFile, readChunks_OpenFile]
  exact chunksFrom_prefix f' g _ _ 8 (by rw [List.length_append]; omega)

/-- C18 at a concrete pair: the sample file cut after 40 bytes, inside its second chunk. -/
theorem readChunks_prefix_witness :
    (readChunks (OpenFile (samplePng.take 40))).1 <+: (readChunks (OpenFile samplePng)).1 :=
  readChunks_prefix (samplePng.take 40) samplePng (List.take_prefix 40 samplePng)

/-- C19. Decoded chunks are contiguous and start at offset 8: the first descriptor, when
there is one, has `Offset` 8; each descriptor starts `12 + Length` bytes after the one before
it; hence every descriptor ends before any later one starts. -/
theorem readChunks_contiguous (f : List Byte) :
    (∀ c, (readChunks (OpenFile f)).1.head? = some c → c.Offset = 8) ∧
    List.Chain' (fun c d : pngChunk => d.Offset = c.Offset + 12 + (c.Length.val : Int))
      (readChunks (OpenFile f)).1 ∧
    List.Pairwise (fun c d : pngChunk => c.Offset + 12 + (c.Length.val : Int) ≤ d.Offset)
      (readChunks (OpenFile f)).1 := by
  rw [readChunks_OpenFile]
  refine ⟨?_, chunksFrom_chain f _ 8, chunksFrom_pairwise f _ 8⟩
  intro c hc
  rw [chunksFrom_head f _ 8 c hc]
  rfl

/-- C20. `"IEND"` can only be the last decoded chunk: no descriptor of `readChunks f` other
than the last has the type `"IEND"`. -/
theorem readChunks_IEND_only_last (f : List Byte) (c : pngChunk)
    (hc : c ∈ (readChunks (OpenFile f)).1.dropLast) : c.Typ.toList ≠ endChunk := by
  rw [readChunks_OpenFile] at hc
  exact chunksFrom_dropLast f _ 8 c hc

/-- C20 at a concrete descriptor: the `IHDR` chunk of the sample file. -/
theorem readChunks_IEND_only_last_witness :
    ({ sampleIHDR with Offset := 8 } : pngChunk).Typ.toList ≠ endChunk :=
  readChunks_IEND_only_last samplePng { sampleIHDR with Offset := 8 } (by decide)

end PngCrcFix
